import Mathlib

set_option maxHeartbeats 4000000

set_option maxRecDepth 8000

/-!
Shallow embedding of `tree_printer.py` (classes `Node` and `TreePrinter`).

Python strings are modelled as `List Char`; `Optional[Node]` is modelled by
the inductive `Node` whose `nil` constructor is Python's `None`.  Each `node`
carries an `ident : Nat` modelling Python object identity: two distinct `Node`
objects always have distinct identities, which the well-formedness predicate
`WFTree` captures as "all `ident`s in the tree are pairwise distinct".
-/

/-- Models `Optional[Node]`: `nil` is Python `None`; `node ident value left right`
models a `Node` object, where `ident` models Python object identity and
`value` is the string stored by `Node.__init__` (the result of `str(value)`). -/
inductive Node where
  | nil : Node
  | node (ident : Nat) (value : List Char) (left right : Node) : Node
deriving DecidableEq, Repr

/-- `Node.get_left` (the `nil` case is unreachable in the source: children are
only read from non-`None` nodes). -/
def Node.get_left : Node → Node
  | .nil => .nil
  | .node _ _ l _ => l

/-- `Node.get_right`. -/
def Node.get_right : Node → Node
  | .nil => .nil
  | .node _ _ _ r => r

/-- `Node.get_value`. -/
def Node.get_value : Node → List Char
  | .nil => []
  | .node _ v _ _ => v

/-- The Python object identity of the root node. -/
def Node.rootIdent : Node → Nat
  | .nil => 0
  | .node i _ _ _ => i

/-- `TreePrinter.VALUE_MAX_LEN`. -/
def VALUE_MAX_LEN : Int := 80

/-- `TreePrinter._find_max_value_len`: `-VALUE_MAX_LEN` for `None`, else the
max of the value's length and the two recursive calls (Python
`max(a, b, c)`). -/
def find_max_value_len : Node → Int
  | .nil => -VALUE_MAX_LEN
  | .node _ v l r =>
      max (v.length : Int) (max (find_max_value_len l) (find_max_value_len r))

/-- `self._max_value_len = max(2, self._find_max_value_len())` computed in
`TreePrinter.__init__` (the result is at least `2`, hence `toNat` is exact). -/
def max_value_len (root : Node) : Nat :=
  (max 2 (find_max_value_len root)).toNat

/-- `TreePrinter._get_inorder_listinfo`'s inner `wrapped(cur_node, level)`:
`[]` for `None`, else `chain(wrapped(left, level+1), [(level, node)],
wrapped(right, level+1))`.  The outer function calls `wrapped(root, 0)`. -/
def get_inorder_listinfo : Node → Nat → List (Nat × Node)
  | .nil, _ => []
  | .node i v l r, level =>
      get_inorder_listinfo l (level + 1) ++
        [(level, Node.node i v l r)] ++ get_inorder_listinfo r (level + 1)

/-- Python `s.center(width)`: unchanged when `len(s) ≥ width`; otherwise with
`marg = width - len(s)`, CPython puts `marg / 2 + (marg & width & 1)` pad
spaces on the left and the rest on the right. -/
def centerPy (width : Nat) (s : List Char) : List Char :=
  if width ≤ s.length then s
  else
    let marg := width - s.length
    let left := marg / 2 + (marg &&& width &&& 1)
    List.replicate left ' ' ++ s ++ List.replicate (marg - left) ' '

/-- `TreePrinter._get_centered_node_value`. -/
def get_centered_node_value (W : Nat) (n : Node) : List Char :=
  centerPy W n.get_value

/-- `TreePrinter._left_pad_node_using_offset`: `offset * (' ' * W)` followed by
the centered value (a negative Python offset yields the empty padding, which
truncated `Nat` subtraction upstream reproduces). -/
def left_pad_node_using_offset (W offset : Nat) (n : Node) : List Char :=
  List.replicate (offset * W) ' ' ++ get_centered_node_value W n

/-- The loop of `TreePrinter._format_tree_line_with_offsets`, with the running
`last_position_offset` as an explicit argument. -/
def format_tree_line_aux (format_action : Nat → Node → List Char) :
    List (Nat × Node) → Nat → List Char
  | [], _ => []
  | (position, n) :: rest, last_position_offset =>
      format_action (position - last_position_offset) n ++
        format_tree_line_aux format_action rest (position + 1)

/-- `TreePrinter._format_tree_line_with_offsets` (`last_position_offset`
starts at `0`). -/
def format_tree_line_with_offsets (tree_line : List (Nat × Node))
    (format_action : Nat → Node → List Char) : List Char :=
  format_tree_line_aux format_action tree_line 0

/-- `TreePrinter._build_tree_scheleton`. -/
def build_tree_scheleton (W : Nat)
    (tree_lines : List (List (Nat × Node))) : List (List Char) :=
  tree_lines.map (fun tl =>
    format_tree_line_with_offsets tl (fun offset n =>
      left_pad_node_using_offset W offset n))

/-- `TreePrinter._get_first_line_below_tree_line`. -/
def get_first_line_below_tree_line (W : Nat)
    (tree_line : List (Nat × Node)) : List Char :=
  format_tree_line_with_offsets tree_line (fun offset n =>
    List.replicate (offset * W) ' ' ++
    [if n.get_left ≠ Node.nil then '/' else ' '] ++
    List.replicate (W - 2) ' ' ++
    [if n.get_right ≠ Node.nil then '\\' else ' '])

/-- Python slice assignment `l[start:stop] = new` for `start ≤ stop` and
`start ≤ len l` (the only shapes the source uses): the slice is replaced, and
the list grows when `stop` exceeds the current length. -/
def sliceAssign {α : Type} (l : List α) (start stop : Nat) (new : List α) :
    List α :=
  l.take start ++ new ++ l.drop stop

/-- `fill_line_blocks` nested in `_get_second_line_below_tree_line`: fills
`line_blocks` with link blocks in `[start, end)` for a left child and
`(start, end]` for a right child. -/
def fill_line_blocks (W : Nat) (line_blocks : List (List Char))
    (start stop : Nat) (is_left_child : Bool) : List (List Char) :=
  let half_max_len := W / 2
  if is_left_child then
    sliceAssign line_blocks start stop
      ((List.replicate (W - half_max_len) ' ' ++ List.replicate half_max_len '-') ::
        List.replicate (stop - start - 1) (List.replicate W '-'))
  else
    sliceAssign line_blocks (start + 1) (stop + 1)
      (List.replicate (stop - start - 1) (List.replicate W '-') ++
        [List.replicate half_max_len '-' ++ List.replicate (W - half_max_len) ' '])

/-- `TreePrinter._get_second_line_below_tree_line`.  Python indexes the last
element with `[-1]` (raising on an empty line, which never occurs in reachable
calls) and locates children with `next(filter(lambda x: x[1] == child, ...))`,
an object-identity comparison modelled here by `Node`-equality (which agrees
with identity whenever the tree's `ident`s are distinct). -/
def get_second_line_below_tree_line (W : Nat)
    (tree_line_above tree_line_below : List (Nat × Node)) : List Char :=
  let line_blocks_length :=
    max (tree_line_above.getLastD (0, Node.nil)).1
        (tree_line_below.getLastD (0, Node.nil)).1
  let line_blocks := List.replicate line_blocks_length (List.replicate W ' ')
  (tree_line_above.foldl (fun blocks pi =>
    let blocks :=
      if pi.2.get_left ≠ Node.nil then
        let left_child_index :=
          ((tree_line_below.find? (fun x => x.2 == pi.2.get_left)).getD
            (0, Node.nil)).1
        fill_line_blocks W blocks left_child_index pi.1 true
      else blocks
    if pi.2.get_right ≠ Node.nil then
      let right_child_index :=
        ((tree_line_below.find? (fun x => x.2 == pi.2.get_right)).getD
          (0, Node.nil)).1
      fill_line_blocks W blocks pi.1 right_child_index false
    else blocks) line_blocks).flatten

/-- `TreePrinter._get_third_line_below_tree_line`. -/
def get_third_line_below_tree_line (W : Nat)
    (tree_line_below : List (Nat × Node)) : List Char :=
  let half_max_len := W / 2
  format_tree_line_with_offsets tree_line_below (fun offset _n =>
    List.replicate (offset * W) ' ' ++
    List.replicate half_max_len ' ' ++
    ['|'] ++
    List.replicate (W - half_max_len - 1) ' ')

/-- The entries appended to `lines_dict[d]` in `__str__`: the `(i, node)`
pairs, in enumeration order, of the in-order list entries whose level is
`d`. -/
def level_line_of (info : List (Nat × Node)) (d : Nat) : List (Nat × Node) :=
  (info.enum.filter (fun x => x.2.1 == d)).map (fun x => (x.1, x.2.2))

/-- `tree_lines = [lines_dict[k] for k in sorted(lines_dict)]`: for a
non-empty in-order list the occurring levels are exactly `0 .. max level`
(every node's parent chain passes through all smaller levels), so the sorted
keys are `List.range (max + 1)`. -/
def tree_lines_of (info : List (Nat × Node)) : List (List (Nat × Node)) :=
  if info.isEmpty then []
  else (List.range ((info.map Prod.fst).foldr max 0 + 1)).map (level_line_of info)

/-- Python `str.rstrip()` restricted to the whitespace characters that can
occur in the rendered output. -/
def rstripPy (s : List Char) : List Char :=
  (s.reverse.dropWhile (fun c => c == ' ' || c == '\n' || c == '\t' || c == '\r')).reverse

/-- The body of `TreePrinter.__str__`, as a function of the cell width and of
the node infos yielded by iterating the stored `_inorder_listinfo`. -/
def str_from_state (W : Nat) (info : List (Nat × Node)) : List Char :=
  let tls := tree_lines_of info
  let scheleton_lines := build_tree_scheleton W tls
  let first_lines := tls.map (get_first_line_below_tree_line W)
  let second_lines :=
    (tls.zip (tls.drop 1)).map
      (fun ab => get_second_line_below_tree_line W ab.1 ab.2) ++ [[]]
  let third_lines := (tls.drop 1).map (get_third_line_below_tree_line W) ++ [[]]
  let groups := scheleton_lines.zip (first_lines.zip (second_lines.zip third_lines))
  rstripPy (List.intercalate ['\n']
    (groups.flatMap (fun g => [g.1, g.2.1, g.2.2.1, g.2.2.2])))

/-- The observable state of a `TreePrinter` object.  `inorder_listinfo` is the
stored `itertools.chain` iterator's remaining items: for a non-`None` root it
is a one-shot iterator, so iterating it (as `__str__` does) consumes it. -/
structure TreePrinter where
  root : Node
  max_value_len : Nat
  inorder_listinfo : List (Nat × Node)

/-- `TreePrinter.__init__`. -/
def TreePrinter.init (root : Node) : TreePrinter :=
  { root := root
    max_value_len := (max 2 (find_max_value_len root)).toNat
    inorder_listinfo := get_inorder_listinfo root 0 }

/-- `TreePrinter.__str__`: returns the rendered string together with the
object state afterwards — iterating `self._inorder_listinfo` exhausts the
stored chain iterator (for a `None` root the stored object is the list `[]`,
which is unchanged by iteration, as here). -/
def TreePrinter.toStr (p : TreePrinter) : List Char × TreePrinter :=
  (str_from_state p.max_value_len p.inorder_listinfo,
    { p with inorder_listinfo := [] })

/-- The string produced by rendering a freshly constructed printer
(`str(TreePrinter(root))`). -/
def render (root : Node) : List Char :=
  (TreePrinter.init root).toStr.1

/-! ### The doctest of `TreePrinter`, machine-checked against the embedding -/

def doct_n3 : Node := .node 3 "123".toList .nil .nil

def doct_n4 : Node := .node 4 "56789".toList .nil .nil

def doct_n5 : Node := .node 5 "789".toList .nil .nil

def doct_n1 : Node := .node 1 "12".toList .nil doct_n3

def doct_n2 : Node := .node 2 "1234".toList doct_n4 doct_n5

def doct_n0 : Node := .node 0 "1".toList doct_n1 doct_n2

/-! ### Paths: addressing the nodes of a tree -/

/-- A direction into a child: `L` = left, `R` = right. -/
inductive Dir where
  | L : Dir
  | R : Dir
deriving DecidableEq, Repr

/-- A path from the root to a (candidate) node. -/
abbrev TPath := List Dir

/-- The subtree reached by following a path (absent subtrees give `nil`). -/
def subtreeAt : Node → TPath → Node
  | t, [] => t
  | t, .L :: p => subtreeAt t.get_left p
  | t, .R :: p => subtreeAt t.get_right p

/-- A path addresses an actual node of the tree. -/
def validPath (t : Node) (p : TPath) : Prop := subtreeAt t p ≠ Node.nil

instance (t : Node) (p : TPath) : Decidable (validPath t p) := by
  unfold validPath; infer_instance

/-- Number of nodes of the tree. -/
def Node.size : Node → Nat
  | .nil => 0
  | .node _ _ l r => l.size + 1 + r.size

/-- In-order index of the first node of the subtree addressed by a path. -/
def istart : Node → TPath → Nat
  | _, [] => 0
  | t, .L :: p => istart t.get_left p
  | t, .R :: p => t.get_left.size + 1 + istart t.get_right p

/-- In-order index (column index) of the node addressed by a path. -/
def ipos (t : Node) (p : TPath) : Nat :=
  istart t p + (subtreeAt t p).get_left.size

/-- All valid paths of a tree, in in-order: left subtree, root, right. -/
def inorderPaths : Node → List TPath
  | .nil => []
  | .node _ _ l r =>
      (inorderPaths l).map (Dir.L :: ·) ++ [[]] ++ (inorderPaths r).map (Dir.R :: ·)

/-- Modelled from the spec: the standard recursive in-order traversal of
(depth, node) pairs — left subtree, then the node itself, then the right
subtree, the root annotated with depth `d` and each child with its parent's
depth plus one. -/
def inorder_traversal_spec : Node → Nat → List (Nat × Node)
  | .nil, _ => []
  | .node i v l r, d =>
      inorder_traversal_spec l (d + 1) ++
        ((d, Node.node i v l r) :: inorder_traversal_spec r (d + 1))

/-- A single `Node('5')`. -/
def single5 : Node := .node 0 "5".toList .nil .nil

/-- A single node whose value is 81 characters long. -/
def longNode : Node := .node 0 (List.replicate 81 'a') .nil .nil

/-- Modelled from the spec: the longest value-string length across all
nodes. -/
def longest_value_len : Node → Nat
  | .nil => 0
  | .node _ v l r =>
      max v.length (max (longest_value_len l) (longest_value_len r))

/-! ### Formatted lines as sequences of W-wide column blocks -/

/-- The column blocks a line produced by `format_tree_line_aux` consists of,
when the action emits `offset` blank cells and then a W-wide block `B n`. -/
def blocksOfLine (W : Nat) (B : Node → List Char) :
    List (Nat × Node) → Nat → List (List Char)
  | [], _ => []
  | (p, n) :: rest, lastOff =>
      List.replicate (p - lastOff) (List.replicate W ' ') ++
        (B n :: blocksOfLine W B rest (p + 1))

/-- The W-wide block the stub row emits for one node: the left edge is `/`
exactly when a left child exists, the right edge `\\` exactly when a right
child exists, the interior blank. -/
def stubBlock (W : Nat) (n : Node) : List Char :=
  [if n.get_left ≠ Node.nil then '/' else ' '] ++
    (List.replicate (W - 2) ' ' ++
      [if n.get_right ≠ Node.nil then '\\' else ' '])

/-! ### C8: object identity, well-formedness, and child lookup -/

/-- The `ident`s of all nodes, in in-order. -/
def inorderIdents : Node → List Nat
  | .nil => []
  | .node i _ l r => inorderIdents l ++ (i :: inorderIdents r)

/-- Well-formedness: all node identities in the tree are pairwise distinct —
always true of a tree of distinct Python `Node` objects. -/
def WFTree (t : Node) : Prop := (inorderIdents t).Nodup

instance (t : Node) : Decidable (WFTree t) := by
  unfold WFTree; infer_instance

/-! ### C8: bridge geometry -/

/-- Columns written by the bridge of the parent at path `q`: `[child, parent)`
for a left child, `(parent, child]` for a right child. -/
def bridgeCovers (t : Node) (q : TPath) (j : Nat) : Prop :=
  (validPath t (q ++ [Dir.L]) ∧ ipos t (q ++ [Dir.L]) ≤ j ∧ j < ipos t q) ∨
  (validPath t (q ++ [Dir.R]) ∧ ipos t q < j ∧ j ≤ ipos t (q ++ [Dir.R]))

instance (t : Node) (q : TPath) (j : Nat) : Decidable (bridgeCovers t q j) := by
  unfold bridgeCovers; infer_instance

/-- The loop body of `_get_second_line_below_tree_line`'s fold over the
parents of the upper line. -/
def second_line_step (W : Nat) (tree_line_below : List (Nat × Node))
    (blocks : List (List Char)) (pi : Nat × Node) : List (List Char) :=
  let blocks2 :=
    if pi.2.get_left ≠ Node.nil then
      fill_line_blocks W blocks
        (((tree_line_below.find? (fun x => x.2 == pi.2.get_left)).getD
          (0, Node.nil)).1) pi.1 true
    else blocks
  if pi.2.get_right ≠ Node.nil then
    fill_line_blocks W blocks2 pi.1
      (((tree_line_below.find? (fun x => x.2 == pi.2.get_right)).getD
        (0, Node.nil)).1) false
  else blocks2

/-- The block the bridge of parent `q` leaves at a column it covers. -/
def bridgeContent (W : Nat) (t : Node) (q : TPath) (j : Nat) : List Char :=
  if j < ipos t q then
    (if j = ipos t (q ++ [Dir.L]) then
      List.replicate (W - W / 2) ' ' ++ List.replicate (W / 2) '-'
    else List.replicate W '-')
  else
    (if j = ipos t (q ++ [Dir.R]) then
      List.replicate (W / 2) '-' ++ List.replicate (W - W / 2) ' '
    else List.replicate W '-')

example : find_max_value_len doct_n0 = 5 := by decide

example : (get_inorder_listinfo doct_n0 0).map (fun e => (e.1, e.2.get_value.asString)) =
    [(1, "12"), (2, "123"), (0, "1"), (2, "56789"), (1, "1234"), (2, "789")] := by decide

/-- The embedding reproduces the module doctest `print(tv)` byte for byte. -/
theorem doctest_render_check :
    (render doct_n0).asString =
      "            1  \n          /   \\\n   -------     -------   \n  |                   |  \n  12                 1234\n    \\               /   \\\n     --           --     --   \n       |         |         |  \n      123      56789      789" := by
  decide

theorem length_inorderPaths (t : Node) : (inorderPaths t).length = t.size := by
  induction t with
  | nil => rfl
  | node i v l r ihl ihr =>
    simp [inorderPaths, Node.size, ihl, ihr]
    omega

/-- `_get_inorder_listinfo` lists, in in-order path order, each node's
`(level + depth, subtree)`. -/
theorem listinfo_eq_map_paths (t : Node) (lvl : Nat) :
    get_inorder_listinfo t lvl =
      (inorderPaths t).map (fun p => (lvl + p.length, subtreeAt t p)) := by
  induction t generalizing lvl with
  | nil => rfl
  | node i v l r ihl ihr =>
    simp only [get_inorder_listinfo, inorderPaths, List.map_append, List.map_map,
      ihl, ihr]
    refine congrArg₂ _ (congrArg₂ _ ?_ ?_) ?_
    · refine List.map_congr_left ?_
      intro p _
      simp only [Function.comp_apply, subtreeAt, Node.get_left, List.length_cons,
        Prod.mk.injEq]
      exact ⟨by omega, trivial⟩
    · simp [subtreeAt]
    · refine List.map_congr_left ?_
      intro p _
      simp only [Function.comp_apply, subtreeAt, Node.get_right, List.length_cons,
        Prod.mk.injEq]
      exact ⟨by omega, trivial⟩

theorem subtreeAt_nil_tree (q : TPath) : subtreeAt Node.nil q = Node.nil := by
  induction q with
  | nil => rfl
  | cons d p ih => cases d <;> simpa [subtreeAt, Node.get_left, Node.get_right] using ih

theorem subtreeAt_append (t : Node) (p q : TPath) :
    subtreeAt t (p ++ q) = subtreeAt (subtreeAt t p) q := by
  induction p generalizing t with
  | nil => rfl
  | cons d p ih => cases d <;> simp [subtreeAt, ih]

theorem istart_append (t : Node) (p q : TPath) :
    istart t (p ++ q) = istart t p + istart (subtreeAt t p) q := by
  induction p generalizing t with
  | nil => simp [istart, subtreeAt]
  | cons d p ih =>
    cases d with
    | L => simp [istart, subtreeAt, ih]
    | R => simp [istart, subtreeAt, ih]; omega

theorem get_left_size_lt (t : Node) (h : t ≠ Node.nil) :
    t.get_left.size < t.size := by
  cases t with
  | nil => exact absurd rfl h
  | node i v l r => simp [Node.get_left, Node.size]; omega

theorem get_left_size_le (t : Node) : t.get_left.size ≤ t.size := by
  cases t with
  | nil => exact Nat.le_refl 0
  | node i v l r => simp [Node.get_left, Node.size]; omega

theorem istart_add_size_le (t : Node) (p : TPath) (h : validPath t p) :
    istart t p + (subtreeAt t p).size ≤ t.size := by
  induction p generalizing t with
  | nil => simp [istart, subtreeAt]
  | cons d p ih =>
    cases t with
    | nil => exact absurd (subtreeAt_nil_tree _) h
    | node i v l r =>
      cases d with
      | L =>
        have hih := ih l h
        simp only [istart, subtreeAt, Node.get_left, Node.size] at *
        omega
      | R =>
        have hih := ih r h
        simp only [istart, subtreeAt, Node.get_left, Node.get_right, Node.size] at *
        omega

theorem ipos_lt_istart_add_size (t : Node) (p : TPath) (h : validPath t p) :
    ipos t p < istart t p + (subtreeAt t p).size := by
  have := get_left_size_lt (subtreeAt t p) h
  unfold ipos
  omega

theorem ipos_lt_size (t : Node) (p : TPath) (h : validPath t p) :
    ipos t p < t.size := by
  have h1 := ipos_lt_istart_add_size t p h
  have h2 := istart_add_size_le t p h
  omega

theorem istart_le_ipos (t : Node) (p : TPath) : istart t p ≤ ipos t p := by
  unfold ipos; omega

theorem ipos_append (t : Node) (p q : TPath) :
    ipos t (p ++ q) = istart t p + ipos (subtreeAt t p) q := by
  unfold ipos
  rw [istart_append, subtreeAt_append]
  omega

/-- `inorderPaths` lists the path `p` exactly at index `ipos t p`. -/
theorem inorderPaths_get_ipos (t : Node) (p : TPath) (h : validPath t p) :
    (inorderPaths t)[ipos t p]? = some p := by
  induction p generalizing t with
  | nil =>
    cases t with
    | nil => exact absurd rfl h
    | node i v l r =>
      have hlen : ((inorderPaths l).map (Dir.L :: ·)).length = l.size := by
        simp [length_inorderPaths]
      have hpos : ipos (Node.node i v l r) [] = l.size := by
        simp [ipos, istart, subtreeAt, Node.get_left]
      rw [hpos]
      simp only [inorderPaths]
      rw [List.append_assoc, List.getElem?_append_right (by omega), hlen,
        Nat.sub_self]
      simp
  | cons d p ih =>
    cases t with
    | nil => exact absurd (subtreeAt_nil_tree _) h
    | node i v l r =>
      cases d with
      | L =>
        have hv : validPath l p := h
        have hpos : ipos (Node.node i v l r) (Dir.L :: p) = ipos l p := by
          simp [ipos, istart, subtreeAt, Node.get_left]
        have hlt : ipos l p < ((inorderPaths l).map (Dir.L :: ·)).length := by
          simp only [List.length_map, length_inorderPaths]
          exact ipos_lt_size l p hv
        rw [hpos]
        simp only [inorderPaths]
        rw [List.append_assoc, List.getElem?_append_left hlt, List.getElem?_map,
          ih l hv]
        rfl
      | R =>
        have hv : validPath r p := h
        have hpos : ipos (Node.node i v l r) (Dir.R :: p) = l.size + 1 + ipos r p := by
          simp [ipos, istart, subtreeAt, Node.get_left, Node.get_right]
          omega
        have hlen : ((inorderPaths l).map (Dir.L :: ·)).length = l.size := by
          simp [length_inorderPaths]
        rw [hpos]
        simp only [inorderPaths]
        rw [List.append_assoc, List.getElem?_append_right (by omega), hlen]
        have hidx : l.size + 1 + ipos r p - l.size = ipos r p + 1 := by omega
        rw [hidx]
        rw [show ([[]] : List TPath) ++ (inorderPaths r).map (Dir.R :: ·) =
          [] :: (inorderPaths r).map (Dir.R :: ·) from rfl]
        rw [List.getElem?_cons_succ, List.getElem?_map, ih r hv]
        rfl

/-- The in-order list entry at index `ipos t p` is the node at `p` with its
depth `p.length`. -/
theorem listinfo_get_ipos (t : Node) (p : TPath) (h : validPath t p) :
    (get_inorder_listinfo t 0)[ipos t p]? = some (p.length, subtreeAt t p) := by
  rw [listinfo_eq_map_paths, List.getElem?_map, inorderPaths_get_ipos t p h]
  simp

theorem ipos_left_lt (t : Node) (p q : TPath) (h : validPath t (p ++ Dir.L :: q)) :
    ipos t (p ++ Dir.L :: q) < ipos t p := by
  have happ := ipos_append t p (Dir.L :: q)
  have hsub : subtreeAt t (p ++ Dir.L :: q) = subtreeAt (subtreeAt t p) (Dir.L :: q) :=
    subtreeAt_append t p _
  cases hs : subtreeAt t p with
  | nil =>
    exfalso
    apply h
    rw [hsub, hs]
    exact subtreeAt_nil_tree _
  | node i v l r =>
    have hvl : validPath l q := by
      intro hc
      apply h
      rw [hsub, hs]
      simpa [subtreeAt, Node.get_left] using hc
    have h1 : ipos (subtreeAt t p) (Dir.L :: q) = ipos l q := by
      rw [hs]; simp [ipos, istart, subtreeAt, Node.get_left]
    have h2 : ipos l q < l.size := ipos_lt_size l q hvl
    have h3 : ipos t p = istart t p + l.size := by
      unfold ipos; rw [hs]; simp [Node.get_left]
    omega

theorem ipos_right_gt (t : Node) (p q : TPath) (h : validPath t (p ++ Dir.R :: q)) :
    ipos t p < ipos t (p ++ Dir.R :: q) := by
  have happ := ipos_append t p (Dir.R :: q)
  have hsub : subtreeAt t (p ++ Dir.R :: q) = subtreeAt (subtreeAt t p) (Dir.R :: q) :=
    subtreeAt_append t p _
  cases hs : subtreeAt t p with
  | nil =>
    exfalso
    apply h
    rw [hsub, hs]
    exact subtreeAt_nil_tree _
  | node i v l r =>
    have h1 : ipos (subtreeAt t p) (Dir.R :: q) = l.size + 1 + ipos r q := by
      rw [hs]; simp [ipos, istart, subtreeAt, Node.get_left, Node.get_right]; omega
    have h3 : ipos t p = istart t p + l.size := by
      unfold ipos; rw [hs]; simp [Node.get_left]
    omega

/-- C4 — Column ordering: the in-order list assigns the node at path `p` the
column index `ipos t p`, and every node of its left subtree gets a strictly
smaller column index, every node of its right subtree a strictly larger
one. -/
theorem c4_column_ordering (t : Node) (p : TPath) (h : validPath t p) :
    (get_inorder_listinfo t 0)[ipos t p]? = some (p.length, subtreeAt t p) ∧
    (∀ q : TPath, validPath t (p ++ Dir.L :: q) →
      ipos t (p ++ Dir.L :: q) < ipos t p) ∧
    (∀ q : TPath, validPath t (p ++ Dir.R :: q) →
      ipos t p < ipos t (p ++ Dir.R :: q)) :=
  ⟨listinfo_get_ipos t p h,
    fun q hq => ipos_left_lt t p q hq,
    fun q hq => ipos_right_gt t p q hq⟩

/-- Witness for C4 on the doctest tree at the root. -/
theorem c4_column_ordering_witness :
    (get_inorder_listinfo doct_n0 0)[ipos doct_n0 []]? = some (0, doct_n0) ∧
    ipos doct_n0 [Dir.L] < ipos doct_n0 [] ∧
    ipos doct_n0 [] < ipos doct_n0 [Dir.R] := by
  have h := c4_column_ordering doct_n0 [] (by decide)
  exact ⟨h.1, h.2.1 [] (by decide), h.2.2 [] (by decide)⟩

/-- C6 — The level flattening is the standard recursive in-order traversal
with depths (root 0, child = parent + 1), and each node of the tree appears
in it at its in-order position carrying its depth `p.length`. -/
theorem c6_inorder_flattening (t : Node) (lvl : Nat) :
    get_inorder_listinfo t lvl = inorder_traversal_spec t lvl ∧
    (∀ p : TPath, validPath t p →
      (get_inorder_listinfo t 0)[ipos t p]? = some (p.length, subtreeAt t p)) := by
  constructor
  · induction t generalizing lvl with
    | nil => rfl
    | node i v l r ihl ihr =>
      simp [get_inorder_listinfo, inorder_traversal_spec, ihl, ihr]
  · intro p hp
    exact listinfo_get_ipos t p hp

/-- Witness for C6 on the doctest tree. -/
theorem c6_inorder_flattening_witness :
    get_inorder_listinfo doct_n0 0 = inorder_traversal_spec doct_n0 0 ∧
    (get_inorder_listinfo doct_n0 0)[ipos doct_n0 [Dir.L, Dir.R]]? =
      some (2, doct_n3) := by
  have h := c6_inorder_flattening doct_n0 0
  refine ⟨h.1, ?_⟩
  have h2 := h.2 [Dir.L, Dir.R] (by decide)
  rw [show subtreeAt doct_n0 [Dir.L, Dir.R] = doct_n3 from rfl] at h2
  simpa using h2

/-- C9 — Rendering never mutates the tree: after construction and after
rendering, the printer's tree is the original one, so every node's value and
child references are unchanged. -/
theorem c9_no_mutation (root : Node) :
    (TreePrinter.init root).root = root ∧
    ((TreePrinter.init root).toStr.2).root = root ∧
    (∀ p : TPath,
      (subtreeAt ((TreePrinter.init root).toStr.2).root p).get_value =
          (subtreeAt root p).get_value ∧
        (subtreeAt ((TreePrinter.init root).toStr.2).root p).get_left =
          (subtreeAt root p).get_left ∧
        (subtreeAt ((TreePrinter.init root).toStr.2).root p).get_right =
          (subtreeAt root p).get_right) :=
  ⟨rfl, rfl, fun _ => ⟨rfl, rfl, rfl⟩⟩

/-- C10 — A `None` root is accepted: construction succeeds (the embedding is
total), the cell width defaults to 2, and rendering yields the empty
string. -/
theorem c10_none_root :
    (TreePrinter.init Node.nil).toStr.1 = [] ∧
    (TreePrinter.init Node.nil).max_value_len = 2 := by decide

/-- C1 fails on the code: the stored in-order chain iterator is consumed by
the first `str`, so the second `str` on the same unmodified printer returns
the empty string instead of the same output. -/
theorem c1_second_render_empty :
    (TreePrinter.init single5).toStr.1 = "5".toList ∧
    ((TreePrinter.init single5).toStr.2).toStr.1 = [] ∧
    (TreePrinter.init single5).toStr.1 ≠
      ((TreePrinter.init single5).toStr.2).toStr.1 := by decide

/-- C2 counterexample: for a value of length 81 the computed cell width is 81,
exceeding the alleged cap of 80 — `VALUE_MAX_LEN` is never applied as a
cap. -/
theorem c2_counterexample :
    (TreePrinter.init longNode).max_value_len = 81 ∧
    ¬((TreePrinter.init longNode).max_value_len ≤ 80) := by decide

theorem find_max_value_len_eq (t : Node) :
    find_max_value_len t =
      if t = Node.nil then -VALUE_MAX_LEN else (longest_value_len t : Int) := by
  induction t with
  | nil => rfl
  | node i v l r ihl ihr =>
    simp only [find_max_value_len, longest_value_len, ihl, ihr, VALUE_MAX_LEN,
      reduceCtorEq, if_false]
    by_cases h1 : l = Node.nil <;> by_cases h2 : r = Node.nil <;>
      simp only [h1, h2, if_true, if_false, longest_value_len, reduceCtorEq] <;>
      push_cast <;> omega

/-- C2 amended — For every non-empty tree the cell width equals
`max(2, longest value length)`, with no upper cap (cf. the counterexample:
it can exceed 80). -/
theorem c2_cell_width (t : Node) (h : t ≠ Node.nil) :
    (TreePrinter.init t).max_value_len = max 2 (longest_value_len t) := by
  show (max 2 (find_max_value_len t)).toNat = _
  rw [find_max_value_len_eq, if_neg h]
  omega

/-- Witness for C2's amended claim on the doctest tree. -/
theorem c2_cell_width_witness :
    doct_n0 ≠ Node.nil ∧
    (TreePrinter.init doct_n0).max_value_len = max 2 (longest_value_len doct_n0) :=
  ⟨by decide, c2_cell_width doct_n0 (by decide)⟩

theorem format_tree_line_aux_eq_flatten (W : Nat) (B : Node → List Char)
    (tl : List (Nat × Node)) (lastOff : Nat) :
    format_tree_line_aux (fun off n => List.replicate (off * W) ' ' ++ B n)
        tl lastOff =
      (blocksOfLine W B tl lastOff).flatten := by
  induction tl generalizing lastOff with
  | nil => rfl
  | cons x rest ih =>
    obtain ⟨p, n⟩ := x
    simp only [format_tree_line_aux, blocksOfLine, List.flatten_append,
      List.flatten_cons, ih, List.flatten_replicate_replicate,
      List.append_assoc]

theorem format_tree_line_aux_congr (f g : Nat → Node → List Char)
    (hfg : ∀ off n, f off n = g off n) (tl : List (Nat × Node)) (lastOff : Nat) :
    format_tree_line_aux f tl lastOff = format_tree_line_aux g tl lastOff := by
  induction tl generalizing lastOff with
  | nil => rfl
  | cons x rest ih =>
    obtain ⟨p, n⟩ := x
    simp only [format_tree_line_aux, hfg, ih]

theorem blocksOfLine_block_lengths (W : Nat) (B : Node → List Char)
    (tl : List (Nat × Node)) (hB : ∀ x ∈ tl, (B x.2).length = W) (lastOff : Nat) :
    ∀ b ∈ blocksOfLine W B tl lastOff, b.length = W := by
  induction tl generalizing lastOff with
  | nil => intro b hb; cases hb
  | cons x rest ih =>
    obtain ⟨p, n⟩ := x
    intro b hb
    simp only [blocksOfLine, List.mem_append, List.mem_cons,
      List.mem_replicate] at hb
    rcases hb with ⟨-, rfl⟩ | rfl | hb
    · exact List.length_replicate W ' '
    · exact hB (p, n) (List.mem_cons_self _ _)
    · exact ih (fun x hx => hB x (List.mem_cons_of_mem _ hx)) (p + 1) b hb

/-- Indexing a flattening of equal-width blocks: character `j * W + k` is
character `k` of block `j`. -/
theorem flatten_getElem_blocks (W : Nat) (blocks : List (List Char))
    (hW : ∀ b ∈ blocks, b.length = W) (j k : Nat) (hk : k < W) :
    blocks.flatten[j * W + k]? = blocks[j]?.bind (fun b => b[k]?) := by
  induction blocks generalizing j with
  | nil => simp
  | cons b rest ih =>
    have hb : b.length = W := hW b (List.mem_cons_self b rest)
    cases j with
    | zero =>
      simp only [Nat.zero_mul, Nat.zero_add, List.flatten_cons]
      rw [List.getElem?_append_left (by omega)]
      simp
    | succ j =>
      have hmul : (j + 1) * W = j * W + W := Nat.succ_mul j W
      simp only [List.flatten_cons]
      rw [List.getElem?_append_right (by omega), hb]
      have hidx : (j + 1) * W + k - W = j * W + k := by omega
      rw [hidx, ih (fun b hbm => hW b (List.mem_cons_of_mem _ hbm)) j,
        List.getElem?_cons_succ]

theorem blocksOfLine_length (W : Nat) (B : Node → List Char)
    (tl : List (Nat × Node)) (lastOff : Nat)
    (hsorted : List.Pairwise (fun a b => a.1 < b.1) tl)
    (hlo : ∀ x ∈ tl, lastOff ≤ x.1) (hne : tl ≠ []) :
    (blocksOfLine W B tl lastOff).length =
      (tl.getLastD (0, Node.nil)).1 + 1 - lastOff := by
  induction tl generalizing lastOff with
  | nil => exact absurd rfl hne
  | cons x rest ih =>
    obtain ⟨p, n⟩ := x
    have hlo0 : lastOff ≤ p := hlo (p, n) (List.mem_cons_self _ _)
    rcases List.pairwise_cons.1 hsorted with ⟨hhead, hrest⟩
    cases rest with
    | nil =>
      simp only [blocksOfLine, List.length_append, List.length_replicate,
        List.length_cons, List.length_nil, List.getLastD_cons,
        List.getLastD_nil]
      omega
    | cons y ys =>
      have hrne : (y :: ys) ≠ ([] : List (Nat × Node)) := List.cons_ne_nil y ys
      have hlast_mem : (y :: ys).getLastD (0, Node.nil) ∈ y :: ys := by
        rw [List.getLastD_cons]
        exact List.getLastD_mem_cons ys y
      have hlast_gt : p < ((y :: ys).getLastD (0, Node.nil)).1 :=
        hhead _ hlast_mem
      have hih := ih (p + 1) hrest (fun x hx => hhead x hx) hrne
      simp only [List.getLastD_cons] at hih hlast_gt ⊢
      show (List.replicate (p - lastOff) (List.replicate W ' ') ++
        (B n :: blocksOfLine W B (y :: ys) (p + 1))).length = _
      rw [List.length_append, List.length_replicate, List.length_cons, hih]
      omega

theorem blocksOfLine_getElem_mem (W : Nat) (B : Node → List Char)
    (tl : List (Nat × Node)) (lastOff : Nat)
    (hsorted : List.Pairwise (fun a b => a.1 < b.1) tl)
    (hlo : ∀ x ∈ tl, lastOff ≤ x.1)
    (p : Nat) (n : Node) (hmem : (p, n) ∈ tl) :
    (blocksOfLine W B tl lastOff)[p - lastOff]? = some (B n) := by
  induction tl generalizing lastOff with
  | nil => cases hmem
  | cons x rest ih =>
    obtain ⟨p0, n0⟩ := x
    rcases List.pairwise_cons.1 hsorted with ⟨hhead, hrest⟩
    rcases List.mem_cons.1 hmem with heq | hmem'
    · rw [Prod.mk.injEq] at heq
      obtain ⟨rfl, rfl⟩ := heq
      simp only [blocksOfLine]
      rw [List.getElem?_append_right (by simp), List.length_replicate,
        Nat.sub_self]
      simp
    · have hp0 : p0 < p := hhead (p, n) hmem'
      have hlo0 : lastOff ≤ p0 := hlo (p0, n0) (List.mem_cons_self _ _)
      simp only [blocksOfLine]
      rw [List.getElem?_append_right (by simp only [List.length_replicate]; omega),
        List.length_replicate]
      have hidx : p - lastOff - (p0 - lastOff) = (p - (p0 + 1)) + 1 := by omega
      rw [hidx, List.getElem?_cons_succ]
      exact ih (p0 + 1) hrest (fun x hx => hhead x hx) hmem'

theorem blocksOfLine_getElem_blank (W : Nat) (B : Node → List Char)
    (tl : List (Nat × Node)) (lastOff : Nat)
    (hsorted : List.Pairwise (fun a b => a.1 < b.1) tl)
    (hlo : ∀ x ∈ tl, lastOff ≤ x.1)
    (j : Nat) (hj : j < (blocksOfLine W B tl lastOff).length)
    (hnot : ∀ x ∈ tl, x.1 ≠ lastOff + j) :
    (blocksOfLine W B tl lastOff)[j]? = some (List.replicate W ' ') := by
  induction tl generalizing lastOff j with
  | nil => simp [blocksOfLine] at hj
  | cons x rest ih =>
    obtain ⟨p0, n0⟩ := x
    rcases List.pairwise_cons.1 hsorted with ⟨hhead, hrest⟩
    have hlo0 : lastOff ≤ p0 := hlo _ (List.mem_cons_self _ _)
    simp only [blocksOfLine, List.length_append, List.length_replicate,
      List.length_cons] at hj
    by_cases hcase : j < p0 - lastOff
    · simp only [blocksOfLine]
      rw [List.getElem?_append_left (by simpa using hcase)]
      simp [List.getElem?_replicate, hcase]
    · have hne0 : j ≠ p0 - lastOff := by
        intro hjeq
        exact (hnot (p0, n0) (List.mem_cons_self _ _)) (by omega)
      have hgt : p0 - lastOff < j := by omega
      simp only [blocksOfLine]
      rw [List.getElem?_append_right (by simp only [List.length_replicate]; omega),
        List.length_replicate]
      have hidx : j - (p0 - lastOff) = (j - (p0 - lastOff) - 1) + 1 := by omega
      rw [hidx, List.getElem?_cons_succ]
      refine ih (p0 + 1) hrest (fun x hx => hhead x hx)
        (j - (p0 - lastOff) - 1) (by omega) ?_
      intro x hx
      have hl : p0 < x.1 := hhead x hx
      have hx2 := hnot x (List.mem_cons_of_mem _ hx)
      omega

/-! ### Properties of the per-depth tree lines -/

theorem pairwise_fst_lt_enum {α : Type} (l : List α) :
    List.Pairwise (fun a b : Nat × α => a.1 < b.1) l.enum := by
  have h1 : List.Pairwise (· < ·) (l.enum.map Prod.fst) := by
    rw [List.enum_map_fst]
    exact List.pairwise_lt_range l.length
  exact List.pairwise_map.1 h1

theorem level_line_sorted (info : List (Nat × Node)) (d : Nat) :
    List.Pairwise (fun a b : Nat × Node => a.1 < b.1) (level_line_of info d) := by
  unfold level_line_of
  refine List.pairwise_map.2 ?_
  exact List.Pairwise.sublist (List.filter_sublist _) (pairwise_fst_lt_enum info)

/-- The node at path `p` appears in the line of its depth, at its column. -/
theorem mem_level_line (t : Node) (p : TPath) (h : validPath t p) :
    (ipos t p, subtreeAt t p) ∈ level_line_of (get_inorder_listinfo t 0) p.length := by
  unfold level_line_of
  have hg := listinfo_get_ipos t p h
  have hmem : (ipos t p, (p.length, subtreeAt t p)) ∈ (get_inorder_listinfo t 0).enum :=
    List.mem_enum_iff_getElem?.2 hg
  have hmem2 : (ipos t p, (p.length, subtreeAt t p)) ∈
      (get_inorder_listinfo t 0).enum.filter (fun x => x.2.1 == p.length) := by
    rw [List.mem_filter]
    exact ⟨hmem, by simp⟩
  exact List.mem_map.2 ⟨_, hmem2, rfl⟩

theorem mem_inorderPaths_valid (t : Node) (q : TPath) (hq : q ∈ inorderPaths t) :
    validPath t q := by
  induction t generalizing q with
  | nil => cases hq
  | node i v l r ihl ihr =>
    simp only [inorderPaths, List.mem_append, List.mem_map,
      List.mem_singleton] at hq
    rcases hq with (⟨q', hq', rfl⟩ | rfl) | ⟨q', hq', rfl⟩
    · exact ihl q' hq'
    · intro hc; cases hc
    · exact ihr q' hq'

theorem nodup_inorderPaths (t : Node) : (inorderPaths t).Nodup := by
  induction t with
  | nil => exact List.nodup_nil
  | node i v l r ihl ihr =>
    simp only [inorderPaths]
    refine List.Nodup.append (List.Nodup.append ?_ ?_ ?_) ?_ ?_
    · exact List.Nodup.map (fun a b h => by injection h) ihl
    · exact List.nodup_singleton _
    · intro x hx hx2
      simp only [List.mem_map] at hx
      obtain ⟨q, -, rfl⟩ := hx
      simp at hx2
    · exact List.Nodup.map (fun a b h => by injection h) ihr
    · intro x hx hx2
      simp only [List.mem_append, List.mem_map, List.mem_singleton] at hx
      simp only [List.mem_map] at hx2
      obtain ⟨q2, -, rfl⟩ := hx2
      rcases hx with ⟨q1, -, heq⟩ | heq
      · cases heq
      · cases heq

/-- Any list index holding path `q` must be `ipos t q`. -/
theorem inorderPaths_index_unique (t : Node) (j : Nat) (q : TPath)
    (hj : (inorderPaths t)[j]? = some q) : ipos t q = j := by
  have hq : q ∈ inorderPaths t := List.getElem?_mem hj
  have hv : validPath t q := mem_inorderPaths_valid t q hq
  have h2 := inorderPaths_get_ipos t q hv
  have hlt : ipos t q < (inorderPaths t).length := by
    rw [length_inorderPaths]
    exact ipos_lt_size t q hv
  exact List.getElem?_inj hlt (nodup_inorderPaths t) (h2.trans hj.symm)

/-- Every entry of the depth-`d` line is some node of the tree at depth `d`,
listed with its column index. -/
theorem level_line_entries (t : Node) (d : Nat) (x : Nat × Node)
    (hx : x ∈ level_line_of (get_inorder_listinfo t 0) d) :
    ∃ q : TPath, validPath t q ∧ q.length = d ∧ x = (ipos t q, subtreeAt t q) := by
  unfold level_line_of at hx
  obtain ⟨y, hy, rfl⟩ := List.mem_map.1 hx
  obtain ⟨hyen, hyd⟩ := List.mem_filter.1 hy
  have hyd' : y.2.1 = d := by simpa using hyd
  have hget : (get_inorder_listinfo t 0)[y.1]? = some y.2 :=
    List.mem_enum_iff_getElem?.1 hyen
  rw [listinfo_eq_map_paths, List.getElem?_map] at hget
  cases hq : (inorderPaths t)[y.1]? with
  | none => rw [hq] at hget; cases hget
  | some q =>
    rw [hq] at hget
    have hget2 : y.2 = (0 + q.length, subtreeAt t q) := by
      have := hget.symm
      simpa using this
    have hv : validPath t q :=
      mem_inorderPaths_valid t q (List.getElem?_mem hq)
    have hipos : ipos t q = y.1 := inorderPaths_index_unique t y.1 q hq
    refine ⟨q, hv, ?_, ?_⟩
    · rw [hget2] at hyd'
      simpa using hyd'
    · rw [hget2, ← hipos]

/-! ### Cell width bounds -/

theorem length_centerPy (W : Nat) (s : List Char) (h : s.length ≤ W) :
    (centerPy W s).length = W := by
  unfold centerPy
  split_ifs with h1
  · omega
  · have hand : (W - s.length) &&& W &&& 1 ≤ 1 := Nat.and_le_right
    simp only [List.length_append, List.length_replicate]
    omega

theorem two_le_max_value_len (t : Node) : 2 ≤ (TreePrinter.init t).max_value_len := by
  show 2 ≤ (max 2 (find_max_value_len t)).toNat
  omega

theorem get_value_length_le_longest (t : Node) :
    t.get_value.length ≤ longest_value_len t := by
  cases t with
  | nil => exact Nat.le_refl 0
  | node i v l r =>
    simp only [Node.get_value, longest_value_len]
    omega

theorem longest_get_left_le (t : Node) :
    longest_value_len t.get_left ≤ longest_value_len t := by
  cases t with
  | nil => exact Nat.le_refl 0
  | node i v l r => simp only [Node.get_left, longest_value_len]; omega

theorem longest_get_right_le (t : Node) :
    longest_value_len t.get_right ≤ longest_value_len t := by
  cases t with
  | nil => exact Nat.le_refl 0
  | node i v l r => simp only [Node.get_right, longest_value_len]; omega

theorem longest_subtreeAt_le (t : Node) (p : TPath) :
    longest_value_len (subtreeAt t p) ≤ longest_value_len t := by
  induction p generalizing t with
  | nil => exact Nat.le_refl _
  | cons d p ih =>
    cases d with
    | L => exact Nat.le_trans (ih t.get_left) (longest_get_left_le t)
    | R => exact Nat.le_trans (ih t.get_right) (longest_get_right_le t)

/-- Every node's value fits in the cell width. -/
theorem value_fits_cell (t : Node) (p : TPath) (h : t ≠ Node.nil) :
    (subtreeAt t p).get_value.length ≤ (TreePrinter.init t).max_value_len := by
  rw [c2_cell_width t h]
  have h1 := get_value_length_le_longest (subtreeAt t p)
  have h2 := longest_subtreeAt_le t p
  omega

theorem validPath_root_ne_nil (t : Node) (p : TPath) (h : validPath t p) :
    t ≠ Node.nil := by
  intro hc
  subst hc
  exact h (subtreeAt_nil_tree p)

/-! ### Locating the depth lines inside the rendering pipeline -/

theorem le_foldr_max (l : List Nat) (a : Nat) (ha : a ∈ l) :
    a ≤ l.foldr max 0 := by
  induction l with
  | nil => cases ha
  | cons b l ih =>
    rcases List.mem_cons.1 ha with rfl | ha'
    · simp only [List.foldr_cons]; omega
    · have := ih ha'; simp only [List.foldr_cons]; omega

/-- `tree_lines` in `__str__` holds the depth-`d` line at index `d`, for
every depth that occurs. -/
theorem tree_lines_of_getElem (t : Node) (p : TPath) (h : validPath t p) :
    (tree_lines_of (get_inorder_listinfo t 0))[p.length]? =
      some (level_line_of (get_inorder_listinfo t 0) p.length) := by
  have hne : t ≠ Node.nil := validPath_root_ne_nil t p h
  have hinfo_ne : get_inorder_listinfo t 0 ≠ [] := by
    cases t with
    | nil => exact absurd rfl hne
    | node i v l r => simp [get_inorder_listinfo]
  have hmem : (p.length, subtreeAt t p) ∈ get_inorder_listinfo t 0 :=
    List.getElem?_mem (listinfo_get_ipos t p h)
  have hfst : p.length ∈ (get_inorder_listinfo t 0).map Prod.fst :=
    List.mem_map.2 ⟨_, hmem, rfl⟩
  have hle : p.length ≤ ((get_inorder_listinfo t 0).map Prod.fst).foldr max 0 :=
    le_foldr_max _ _ hfst
  unfold tree_lines_of
  rw [if_neg (by simpa using hinfo_ne)]
  rw [List.getElem?_map, List.getElem?_range (by omega)]
  rfl

/-- C5 — Stub row: in the stub row under a node's depth level, the left edge
of the node's W-wide block holds `/` iff the node has a left child, the right
edge holds `\` iff it has a right child, and the interior of the block is
blank. -/
theorem c5_stub_row (t : Node) (p : TPath) (h : validPath t p) :
    ((get_first_line_below_tree_line (TreePrinter.init t).max_value_len
        (level_line_of (get_inorder_listinfo t 0) p.length))[
        ipos t p * (TreePrinter.init t).max_value_len]? =
      some (if (subtreeAt t p).get_left ≠ Node.nil then '/' else ' ')) ∧
    ((get_first_line_below_tree_line (TreePrinter.init t).max_value_len
        (level_line_of (get_inorder_listinfo t 0) p.length))[
        ipos t p * (TreePrinter.init t).max_value_len
          + ((TreePrinter.init t).max_value_len - 1)]? =
      some (if (subtreeAt t p).get_right ≠ Node.nil then '\\' else ' ')) ∧
    (∀ k, 0 < k → k < (TreePrinter.init t).max_value_len - 1 →
      (get_first_line_below_tree_line (TreePrinter.init t).max_value_len
        (level_line_of (get_inorder_listinfo t 0) p.length))[
        ipos t p * (TreePrinter.init t).max_value_len + k]? = some ' ') := by
  have hW2 : 2 ≤ (TreePrinter.init t).max_value_len := two_le_max_value_len t
  generalize hWdef : (TreePrinter.init t).max_value_len = W at *
  set tl := level_line_of (get_inorder_listinfo t 0) p.length with htl
  have hline : get_first_line_below_tree_line W tl =
      (blocksOfLine W (stubBlock W) tl 0).flatten := by
    rw [← format_tree_line_aux_eq_flatten W (stubBlock W) tl 0]
    unfold get_first_line_below_tree_line format_tree_line_with_offsets
    exact format_tree_line_aux_congr _ _
      (fun off n => by simp [stubBlock, List.append_assoc]) tl 0
  have hsorted := level_line_sorted (get_inorder_listinfo t 0) p.length
  have hlo : ∀ x ∈ tl, 0 ≤ x.1 := fun x _ => Nat.zero_le _
  have hmem : (ipos t p, subtreeAt t p) ∈ tl := mem_level_line t p h
  have hblock : (blocksOfLine W (stubBlock W) tl 0)[ipos t p]? =
      some (stubBlock W (subtreeAt t p)) := by
    have hb := blocksOfLine_getElem_mem W (stubBlock W) tl 0 hsorted hlo
      (ipos t p) (subtreeAt t p) hmem
    simpa using hb
  have hBlen : ∀ x ∈ tl, (stubBlock W x.2).length = W := by
    intro x _
    simp only [stubBlock, List.length_append, List.length_cons,
      List.length_replicate, List.length_nil]
    omega
  have hall := blocksOfLine_block_lengths W (stubBlock W) tl hBlen 0
  have hchar : ∀ k, k < W →
      (get_first_line_below_tree_line W tl)[ipos t p * W + k]? =
        (stubBlock W (subtreeAt t p))[k]? := by
    intro k hk
    rw [hline, flatten_getElem_blocks W _ hall (ipos t p) k hk, hblock]
    rfl
  refine ⟨?_, ?_, ?_⟩
  · have h0 := hchar 0 (by omega)
    have hB0 : (stubBlock W (subtreeAt t p))[0]? =
        some (if (subtreeAt t p).get_left ≠ Node.nil then '/' else ' ') := by
      simp [stubBlock]
    rw [← Nat.add_zero (ipos t p * W)]
    exact h0.trans hB0
  · have h1 := hchar (W - 1) (by omega)
    rw [h1]
    simp only [stubBlock]
    rw [List.getElem?_append_right (by simp only [List.length_cons, List.length_nil]; omega)]
    simp only [List.length_cons, List.length_nil]
    rw [List.getElem?_append_right (by simp only [List.length_replicate]; omega)]
    simp only [List.length_replicate]
    rw [show W - 1 - 1 - (W - 2) = 0 from by omega]
    rfl
  · intro k hk0 hkW
    have h2 := hchar k (by omega)
    rw [h2]
    simp only [stubBlock]
    rw [List.getElem?_append_right (by simp only [List.length_cons, List.length_nil]; omega)]
    simp only [List.length_cons, List.length_nil]
    rw [List.getElem?_append_left (by simp only [List.length_replicate]; omega)]
    exact List.getElem?_replicate_of_lt (by omega)

/-- Witness for C5 at node `12` of the doctest tree (right child only). -/
theorem c5_stub_row_witness :
    validPath doct_n0 [Dir.L] ∧
    ((get_first_line_below_tree_line (TreePrinter.init doct_n0).max_value_len
        (level_line_of (get_inorder_listinfo doct_n0 0) [Dir.L].length))[
        ipos doct_n0 [Dir.L] * (TreePrinter.init doct_n0).max_value_len]? =
      some (if (subtreeAt doct_n0 [Dir.L]).get_left ≠ Node.nil then '/' else ' ')) ∧
    ((get_first_line_below_tree_line (TreePrinter.init doct_n0).max_value_len
        (level_line_of (get_inorder_listinfo doct_n0 0) [Dir.L].length))[
        ipos doct_n0 [Dir.L] * (TreePrinter.init doct_n0).max_value_len
          + ((TreePrinter.init doct_n0).max_value_len - 1)]? =
      some (if (subtreeAt doct_n0 [Dir.L]).get_right ≠ Node.nil then '\\' else ' ')) := by
  have h := c5_stub_row doct_n0 [Dir.L] (by decide)
  exact ⟨by decide, h.1, h.2.1⟩

/-- C7 — Skeleton row: the depth-`d` skeleton line (entry `d` of
`build_tree_scheleton` over the grouped lines) places each node's value,
centered in a W-wide block, at offset column-index × W, and blank W-wide
blocks fill the columns of nodes of other depths. -/
theorem c7_skeleton_row (t : Node) (p : TPath) (h : validPath t p) :
    ((build_tree_scheleton (TreePrinter.init t).max_value_len
        (tree_lines_of (get_inorder_listinfo t 0)))[p.length]? =
      some (format_tree_line_with_offsets
        (level_line_of (get_inorder_listinfo t 0) p.length)
        (fun offset n =>
          left_pad_node_using_offset (TreePrinter.init t).max_value_len offset n))) ∧
    ((get_centered_node_value (TreePrinter.init t).max_value_len
        (subtreeAt t p)).length = (TreePrinter.init t).max_value_len) ∧
    (∀ k, k < (TreePrinter.init t).max_value_len →
      (format_tree_line_with_offsets
        (level_line_of (get_inorder_listinfo t 0) p.length)
        (fun offset n =>
          left_pad_node_using_offset (TreePrinter.init t).max_value_len offset n))[
        ipos t p * (TreePrinter.init t).max_value_len + k]? =
      (get_centered_node_value (TreePrinter.init t).max_value_len
        (subtreeAt t p))[k]?) ∧
    (∀ j k, (∀ x ∈ level_line_of (get_inorder_listinfo t 0) p.length, x.1 ≠ j) →
      j ≤ ((level_line_of (get_inorder_listinfo t 0) p.length).getLastD
        (0, Node.nil)).1 →
      k < (TreePrinter.init t).max_value_len →
      (format_tree_line_with_offsets
        (level_line_of (get_inorder_listinfo t 0) p.length)
        (fun offset n =>
          left_pad_node_using_offset (TreePrinter.init t).max_value_len offset n))[
        j * (TreePrinter.init t).max_value_len + k]? = some ' ') := by
  have hW2 : 2 ≤ (TreePrinter.init t).max_value_len := two_le_max_value_len t
  have hne : t ≠ Node.nil := validPath_root_ne_nil t p h
  have hfit : ∀ q : TPath,
      (subtreeAt t q).get_value.length ≤ (TreePrinter.init t).max_value_len :=
    fun q => value_fits_cell t q hne
  have hpipe : (build_tree_scheleton (TreePrinter.init t).max_value_len
      (tree_lines_of (get_inorder_listinfo t 0)))[p.length]? =
      some (format_tree_line_with_offsets
        (level_line_of (get_inorder_listinfo t 0) p.length)
        (fun offset n =>
          left_pad_node_using_offset (TreePrinter.init t).max_value_len offset n)) := by
    unfold build_tree_scheleton
    rw [List.getElem?_map, tree_lines_of_getElem t p h]
    rfl
  generalize hWdef : (TreePrinter.init t).max_value_len = W at *
  set tl := level_line_of (get_inorder_listinfo t 0) p.length with htl
  have hsorted := level_line_sorted (get_inorder_listinfo t 0) p.length
  have hlo : ∀ x ∈ tl, 0 ≤ x.1 := fun x _ => Nat.zero_le _
  have hmem : (ipos t p, subtreeAt t p) ∈ tl := mem_level_line t p h
  have htlne : tl ≠ [] := fun hc => by rw [hc] at hmem; cases hmem
  have hBlen : ∀ x ∈ tl, (get_centered_node_value W x.2).length = W := by
    intro x hx
    obtain ⟨q, hq, hqlen, rfl⟩ := level_line_entries t p.length x hx
    exact length_centerPy W _ (hfit q)
  have hline : format_tree_line_with_offsets tl
      (fun offset n => left_pad_node_using_offset W offset n) =
      (blocksOfLine W (get_centered_node_value W) tl 0).flatten := by
    rw [← format_tree_line_aux_eq_flatten W (get_centered_node_value W) tl 0]
    unfold format_tree_line_with_offsets
    exact format_tree_line_aux_congr _ _ (fun off n => rfl) tl 0
  have hall := blocksOfLine_block_lengths W (get_centered_node_value W) tl hBlen 0
  have hblock : (blocksOfLine W (get_centered_node_value W) tl 0)[ipos t p]? =
      some (get_centered_node_value W (subtreeAt t p)) := by
    have hb := blocksOfLine_getElem_mem W (get_centered_node_value W) tl 0
      hsorted hlo (ipos t p) (subtreeAt t p) hmem
    simpa using hb
  refine ⟨hpipe, length_centerPy W _ (hfit p), ?_, ?_⟩
  · intro k hk
    rw [hline, flatten_getElem_blocks W _ hall (ipos t p) k hk, hblock]
    rfl
  · intro j k hnotj hjle hk
    have hlen := blocksOfLine_length W (get_centered_node_value W) tl 0
      hsorted hlo htlne
    have hblank := blocksOfLine_getElem_blank W (get_centered_node_value W) tl 0
      hsorted hlo j (by rw [hlen]; omega)
      (fun x hx => by simpa using hnotj x hx)
    rw [hline, flatten_getElem_blocks W _ hall j k hk, hblank]
    exact List.getElem?_replicate_of_lt hk

/-- Witness for C7 at the doctest root (depth 0, column 2): the skeleton row
is row 0 of the pipeline, the centered block has width W, and column 0 of the
root's row is blank. -/
theorem c7_skeleton_row_witness :
    validPath doct_n0 [] ∧
    ((build_tree_scheleton (TreePrinter.init doct_n0).max_value_len
        (tree_lines_of (get_inorder_listinfo doct_n0 0)))[(0 : Nat)]? =
      some (format_tree_line_with_offsets
        (level_line_of (get_inorder_listinfo doct_n0 0) 0)
        (fun offset n =>
          left_pad_node_using_offset (TreePrinter.init doct_n0).max_value_len
            offset n))) ∧
    (format_tree_line_with_offsets
        (level_line_of (get_inorder_listinfo doct_n0 0) 0)
        (fun offset n =>
          left_pad_node_using_offset (TreePrinter.init doct_n0).max_value_len
            offset n))[
      ipos doct_n0 [] * (TreePrinter.init doct_n0).max_value_len]? =
      (get_centered_node_value (TreePrinter.init doct_n0).max_value_len
        doct_n0)[(0 : Nat)]? ∧
    (format_tree_line_with_offsets
        (level_line_of (get_inorder_listinfo doct_n0 0) 0)
        (fun offset n =>
          left_pad_node_using_offset (TreePrinter.init doct_n0).max_value_len
            offset n))[(0 : Nat)]? = some ' ' := by
  have h := c7_skeleton_row doct_n0 [] (by decide)
  refine ⟨by decide, h.1, ?_, ?_⟩
  · have h3 := h.2.2.1 0 (by decide)
    simpa using h3
  · have h4 := h.2.2.2 0 0 (by decide) (by decide) (by decide)
    simpa using h4

/-! ### C3: single-node rendering -/

theorem rstripPy_append_ws (xs ys : List Char)
    (hws : ∀ c ∈ ys, (c == ' ' || c == '\n' || c == '\t' || c == '\r') = true) :
    rstripPy (xs ++ ys) = rstripPy xs := by
  unfold rstripPy
  rw [List.reverse_append,
    List.dropWhile_append_of_pos (fun a ha => hws a (List.mem_reverse.1 ha))]

theorem rstripPy_sublist (s : List Char) : List.Sublist (rstripPy s) s := by
  unfold rstripPy
  have h1 : List.Sublist (s.reverse.dropWhile
      (fun c => c == ' ' || c == '\n' || c == '\t' || c == '\r')) s.reverse :=
    List.dropWhile_sublist _
  have h2 := h1.reverse
  rwa [List.reverse_reverse] at h2

theorem single_node_W (i : Nat) (v : List Char) :
    (TreePrinter.init (Node.node i v .nil .nil)).max_value_len = max 2 v.length := by
  rw [c2_cell_width _ (by simp)]
  simp only [longest_value_len]
  omega

/-- The rendering of a single-node tree: the centered value, right-stripped. -/
theorem render_single (i : Nat) (v : List Char) :
    render (Node.node i v .nil .nil) =
      rstripPy (centerPy (max 2 v.length) v) := by
  have hW := single_node_W i v
  have hinfo : (TreePrinter.init (Node.node i v .nil .nil)).inorder_listinfo =
      [(0, Node.node i v .nil .nil)] := by
    simp [TreePrinter.init, get_inorder_listinfo]
  have hrw : render (Node.node i v .nil .nil) =
      str_from_state (TreePrinter.init (Node.node i v .nil .nil)).max_value_len
        (TreePrinter.init (Node.node i v .nil .nil)).inorder_listinfo := rfl
  rw [hrw, hW, hinfo]
  obtain ⟨W, hWeq⟩ : ∃ W, max 2 v.length = W := ⟨_, rfl⟩
  rw [hWeq]
  unfold str_from_state
  have htls : tree_lines_of [(0, Node.node i v .nil .nil)] =
      [[(0, Node.node i v .nil .nil)]] := by
    unfold tree_lines_of level_line_of
    simp [List.enum, List.range_succ]
  rw [htls]
  simp only [build_tree_scheleton, List.map_cons, List.map_nil,
    format_tree_line_with_offsets, format_tree_line_aux,
    left_pad_node_using_offset, get_centered_node_value, Node.get_value,
    get_first_line_below_tree_line, Node.get_left, Node.get_right,
    List.zip_nil_right, List.drop_succ_cons, List.drop_nil]
  simp only [Nat.zero_mul, Nat.sub_zero, List.replicate_zero, List.nil_append,
    List.append_nil, ne_eq, not_true_eq_false, if_false, List.zip_cons_cons,
    List.zip_nil_left, List.flatMap_cons, List.flatMap_nil, List.intercalate,
    List.intersperse_cons₂, List.intersperse_single, List.flatten_cons,
    List.flatten_nil]
  rw [rstripPy_append_ws]
  intro c hc
  simp only [List.mem_append, List.mem_cons, List.mem_replicate,
    List.not_mem_nil, or_false] at hc
  rcases hc with rfl | ((rfl | ⟨-, rfl⟩) | rfl) | rfl | rfl <;> rfl

/-- C3 as stated fails: for the single node `5` the code outputs `"5"`, not
the value centered and padded to the minimum width 2 (`"5 "`). -/
theorem c3_counterexample :
    render single5 = "5".toList ∧
    centerPy 2 "5".toList = "5 ".toList ∧
    render single5 ≠ centerPy 2 "5".toList := by decide

/-- C3 amended — a single-node tree renders as exactly one line containing no
newline: the value centered in its width-`max 2 len` cell, with trailing
whitespace stripped by the final `rstrip` (so the node `5` yields exactly
`"5"`). -/
theorem c3_single_node (i : Nat) (v : List Char) (hnl : '\n' ∉ v) :
    render (Node.node i v .nil .nil) =
      rstripPy (centerPy (max 2 v.length) v) ∧
    '\n' ∉ render (Node.node i v .nil .nil) := by
  refine ⟨render_single i v, ?_⟩
  rw [render_single i v]
  intro hmem
  have hmem2 : '\n' ∈ centerPy (max 2 v.length) v :=
    (rstripPy_sublist _).subset hmem
  unfold centerPy at hmem2
  split_ifs at hmem2
  · exact hnl hmem2
  · simp only [List.mem_append, List.mem_replicate] at hmem2
    rcases hmem2 with (⟨-, h⟩ | h) | ⟨-, h⟩
    · exact absurd h (by decide)
    · exact hnl h
    · exact absurd h (by decide)

/-- Witness for C3's amended claim at the node `5`. -/
theorem c3_single_node_witness :
    '\n' ∉ "5".toList ∧
    render (Node.node 0 "5".toList .nil .nil) =
      rstripPy (centerPy (max 2 "5".toList.length) "5".toList) ∧
    '\n' ∉ render (Node.node 0 "5".toList .nil .nil) := by
  have h := c3_single_node 0 "5".toList (by decide)
  exact ⟨by decide, h.1, h.2⟩

theorem listinfo_map_rootIdent (t : Node) (lvl : Nat) :
    (get_inorder_listinfo t lvl).map (fun e => e.2.rootIdent) = inorderIdents t := by
  induction t generalizing lvl with
  | nil => rfl
  | node i v l r ihl ihr =>
    simp only [get_inorder_listinfo, List.map_append, List.map_cons, List.map_nil,
      ihl, ihr, inorderIdents, List.append_assoc, List.singleton_append,
      List.nil_append]
    rfl

/-- With distinct identities, two valid paths whose nodes share an identity
are the same path. -/
theorem ident_inj (t : Node) (hwf : WFTree t) (q1 q2 : TPath)
    (h1 : validPath t q1) (h2 : validPath t q2)
    (heq : (subtreeAt t q1).rootIdent = (subtreeAt t q2).rootIdent) :
    q1 = q2 := by
  have hids : (get_inorder_listinfo t 0).map (fun e => e.2.rootIdent) =
      inorderIdents t := listinfo_map_rootIdent t 0
  have hg1 := listinfo_get_ipos t q1 h1
  have hg2 := listinfo_get_ipos t q2 h2
  have hid1 : (inorderIdents t)[ipos t q1]? = some (subtreeAt t q1).rootIdent := by
    rw [← hids, List.getElem?_map, hg1]; rfl
  have hid2 : (inorderIdents t)[ipos t q2]? = some (subtreeAt t q2).rootIdent := by
    rw [← hids, List.getElem?_map, hg2]; rfl
  have hlt : ipos t q1 < (inorderIdents t).length := by
    obtain ⟨hh, -⟩ := List.getElem?_eq_some_iff.1 hid1
    exact hh
  have hij : ipos t q1 = ipos t q2 :=
    List.getElem?_inj hlt hwf (by rw [hid1, hid2, heq])
  have hp1 := inorderPaths_get_ipos t q1 h1
  have hp2 := inorderPaths_get_ipos t q2 h2
  rw [hij, hp2] at hp1
  exact (Option.some.inj hp1).symm

theorem subtreeAt_child_left (t : Node) (q : TPath) :
    subtreeAt t (q ++ [Dir.L]) = (subtreeAt t q).get_left := by
  rw [subtreeAt_append]; rfl

theorem subtreeAt_child_right (t : Node) (q : TPath) :
    subtreeAt t (q ++ [Dir.R]) = (subtreeAt t q).get_right := by
  rw [subtreeAt_append]; rfl

/-- The `next(filter(...))` child lookup: the identity comparison finds
exactly the child's entry in the level below, even when values repeat. -/
theorem find_child_eq (t : Node) (hwf : WFTree t) (q : TPath) (d : Dir)
    (hchild : validPath t (q ++ [d])) :
    (level_line_of (get_inorder_listinfo t 0) (q.length + 1)).find?
        (fun x => x.2 == subtreeAt t (q ++ [d])) =
      some (ipos t (q ++ [d]), subtreeAt t (q ++ [d])) := by
  have hlen : (q ++ [d]).length = q.length + 1 := by simp
  have hmem : (ipos t (q ++ [d]), subtreeAt t (q ++ [d])) ∈
      level_line_of (get_inorder_listinfo t 0) (q.length + 1) := by
    have := mem_level_line t (q ++ [d]) hchild
    rwa [hlen] at this
  have hex : (level_line_of (get_inorder_listinfo t 0) (q.length + 1)).find?
      (fun x => x.2 == subtreeAt t (q ++ [d])) |>.isSome := by
    rw [List.find?_isSome]
    exact ⟨_, hmem, by simp⟩
  cases hfind : (level_line_of (get_inorder_listinfo t 0) (q.length + 1)).find?
      (fun x => x.2 == subtreeAt t (q ++ [d])) with
  | none => rw [hfind] at hex; cases hex
  | some x =>
    have hxmem := List.mem_of_find?_eq_some hfind
    have hxpred := List.find?_some hfind
    have hx2 : x.2 = subtreeAt t (q ++ [d]) := by simpa using hxpred
    obtain ⟨q2, hq2, hq2len, hxeq⟩ :=
      level_line_entries t (q.length + 1) x hxmem
    have hsub : subtreeAt t q2 = subtreeAt t (q ++ [d]) := by
      rw [hxeq] at hx2
      exact hx2
    have hq2' : q2 = q ++ [d] :=
      ident_inj t hwf q2 (q ++ [d]) hq2 hchild (by rw [hsub])
    rw [hxeq, hq2']

/-- Distinct same-depth nodes own disjoint in-order index intervals. -/
theorem interval_disjoint (t : Node) (p q : TPath) (hlen : p.length = q.length)
    (hne : p ≠ q) (hp : validPath t p) (hq : validPath t q) :
    istart t p + (subtreeAt t p).size ≤ istart t q ∨
    istart t q + (subtreeAt t q).size ≤ istart t p := by
  induction p generalizing t q with
  | nil =>
    cases q with
    | nil => exact absurd rfl hne
    | cons e q2 => simp at hlen
  | cons d p ih =>
    cases q with
    | nil => simp at hlen
    | cons e q2 =>
      cases t with
      | nil => exact absurd (subtreeAt_nil_tree _) hp
      | node i v l r =>
        cases d with
        | L =>
          cases e with
          | L =>
            have hne2 : p ≠ q2 := fun hc => hne (by rw [hc])
            have hd := ih l q2 (by simpa using hlen) hne2 hp hq
            simpa [istart, subtreeAt, Node.get_left] using hd
          | R =>
            left
            have h1 : istart l p + (subtreeAt l p).size ≤ l.size :=
              istart_add_size_le l p hp
            simp only [istart, subtreeAt, Node.get_left, Node.get_right] at *
            omega
        | R =>
          cases e with
          | L =>
            right
            have h1 : istart l q2 + (subtreeAt l q2).size ≤ l.size :=
              istart_add_size_le l q2 hq
            simp only [istart, subtreeAt, Node.get_left, Node.get_right] at *
            omega
          | R =>
            have hne2 : p ≠ q2 := fun hc => hne (by rw [hc])
            have hd := ih r q2 (by simpa using hlen) hne2 hp hq
            simp only [istart, subtreeAt, Node.get_left, Node.get_right] at *
            omega

theorem bridgeCovers_in_interval (t : Node) (q : TPath) (j : Nat)
    (hq : validPath t q) (hc : bridgeCovers t q j) :
    istart t q ≤ j ∧ j < istart t q + (subtreeAt t q).size := by
  rcases hc with ⟨hv, h1, h2⟩ | ⟨hv, h1, h2⟩
  · have h3 := ipos_append t q [Dir.L]
    have h4 := ipos_lt_istart_add_size t q hq
    have h5 := istart_le_ipos t q
    omega
  · have h5 := istart_le_ipos t q
    have h6 := ipos_append t q [Dir.R]
    have hv2 : validPath (subtreeAt t q) [Dir.R] := by
      rw [validPath, ← subtreeAt_append]
      exact hv
    have h7 := ipos_lt_size (subtreeAt t q) [Dir.R] hv2
    have h8 := istart_add_size_le t q hq
    omega

theorem bridgeCovers_disjoint (t : Node) (q1 q2 : TPath)
    (h1 : validPath t q1) (h2 : validPath t q2)
    (hlen : q1.length = q2.length) (hne : q1 ≠ q2) (j : Nat)
    (hc1 : bridgeCovers t q1 j) (hc2 : bridgeCovers t q2 j) : False := by
  have hi1 := bridgeCovers_in_interval t q1 j h1 hc1
  have hi2 := bridgeCovers_in_interval t q2 j h2 hc2
  rcases interval_disjoint t q1 q2 hlen hne h1 h2 with hd | hd <;> omega

/-- In a line with strictly increasing positions, every position is at most
the last one. -/
theorem mem_le_getLastD (l : List (Nat × Node)) (x : Nat × Node) (hx : x ∈ l)
    (hsorted : List.Pairwise (fun a b : Nat × Node => a.1 < b.1) l) :
    x.1 ≤ (l.getLastD (0, Node.nil)).1 := by
  induction l with
  | nil => cases hx
  | cons y ys ih =>
    rcases List.pairwise_cons.1 hsorted with ⟨hhead, hrest⟩
    rw [List.getLastD_cons]
    rcases List.mem_cons.1 hx with rfl | hx2
    · cases ys with
      | nil => exact Nat.le_refl _
      | cons z zs =>
        have hz : (z :: zs).getLastD x ∈ z :: zs := by
          rw [List.getLastD_cons]
          exact List.getLastD_mem_cons zs z
        have hlast := hhead _ hz
        rw [List.getLastD_cons] at hlast ⊢
        omega
    · cases ys with
      | nil => cases hx2
      | cons z zs =>
        have hih := ih hx2 hrest
        rw [List.getLastD_cons] at hih ⊢
        have hy : (zs.getLastD z) ∈ z :: zs := List.getLastD_mem_cons zs z
        exact hih.trans (Nat.le_refl _)

/-! ### C8: slice assignment and fills, pointwise -/

theorem sliceAssign_getElem {α : Type} (l : List α) (s e : Nat) (new : List α)
    (hs : s ≤ l.length) (hlen : new.length = e - s) (hse : s ≤ e) (j : Nat) :
    (sliceAssign l s e new)[j]? =
      if s ≤ j ∧ j < e then new[j - s]? else l[j]? := by
  unfold sliceAssign
  have htk : (l.take s).length = s := by
    rw [List.length_take]
    omega
  by_cases hj1 : j < s
  · rw [if_neg (by omega)]
    rw [List.getElem?_append_left (by rw [List.length_append, htk]; omega)]
    rw [List.getElem?_append_left (by rw [htk]; omega)]
    exact List.getElem?_take_of_lt hj1
  · by_cases hj2 : j < e
    · rw [if_pos ⟨by omega, hj2⟩]
      rw [List.getElem?_append_left (by rw [List.length_append, htk]; omega)]
      rw [List.getElem?_append_right (by rw [htk]; omega), htk]
    · rw [if_neg (by omega)]
      rw [List.getElem?_append_right (by rw [List.length_append, htk]; omega)]
      rw [List.length_append, htk, hlen]
      rw [List.getElem?_drop]
      congr 1
      omega

theorem sliceAssign_length_ge {α : Type} (l : List α) (s e : Nat) (new : List α)
    (hs : s ≤ l.length) (hlen : new.length = e - s) :
    l.length ≤ (sliceAssign l s e new).length := by
  unfold sliceAssign
  simp only [List.length_append, List.length_take, List.length_drop]
  omega

theorem sliceAssign_mem {α : Type} (l : List α) (s e : Nat) (new : List α)
    (b : α) (hb : b ∈ sliceAssign l s e new) : b ∈ l ∨ b ∈ new := by
  unfold sliceAssign at hb
  simp only [List.mem_append] at hb
  rcases hb with (hb | hb) | hb
  · exact Or.inl (List.mem_of_mem_take hb)
  · exact Or.inr hb
  · exact Or.inl (List.mem_of_mem_drop hb)

theorem fill_left_getElem (W : Nat) (blocks : List (List Char))
    (start stop : Nat) (hs : start ≤ blocks.length) (hss : start < stop)
    (j : Nat) :
    (fill_line_blocks W blocks start stop true)[j]? =
      if start ≤ j ∧ j < stop then
        (if j = start then
          some (List.replicate (W - W / 2) ' ' ++ List.replicate (W / 2) '-')
        else some (List.replicate W '-'))
      else blocks[j]? := by
  unfold fill_line_blocks
  simp only [if_true]
  rw [sliceAssign_getElem blocks start stop _ hs
    (by simp only [List.length_cons, List.length_replicate]; omega)
    (by omega) j]
  by_cases hj : start ≤ j ∧ j < stop
  · rw [if_pos hj, if_pos hj]
    by_cases hjs : j = start
    · subst hjs
      rw [if_pos rfl, Nat.sub_self]
      exact List.getElem?_cons_zero
    · rw [if_neg hjs]
      have hidx : j - start = (j - start - 1) + 1 := by omega
      rw [hidx, List.getElem?_cons_succ]
      exact List.getElem?_replicate_of_lt (by omega)
  · rw [if_neg hj, if_neg hj]

theorem fill_right_getElem (W : Nat) (blocks : List (List Char))
    (start stop : Nat) (hs : start + 1 ≤ blocks.length) (hss : start < stop)
    (j : Nat) :
    (fill_line_blocks W blocks start stop false)[j]? =
      if start + 1 ≤ j ∧ j < stop + 1 then
        (if j = stop then
          some (List.replicate (W / 2) '-' ++ List.replicate (W - W / 2) ' ')
        else some (List.replicate W '-'))
      else blocks[j]? := by
  unfold fill_line_blocks
  simp only [Bool.false_eq_true, if_false]
  rw [sliceAssign_getElem blocks (start + 1) (stop + 1) _ hs
    (by simp only [List.length_append, List.length_replicate,
      List.length_cons, List.length_nil]; omega)
    (by omega) j]
  by_cases hj : start + 1 ≤ j ∧ j < stop + 1
  · rw [if_pos hj, if_pos hj]
    by_cases hjs : j = stop
    · subst hjs
      rw [if_pos rfl]
      rw [List.getElem?_append_right (by simp only [List.length_replicate]; omega)]
      rw [List.length_replicate]
      rw [show j - (start + 1) - (j - start - 1) = 0 from by omega]
      exact List.getElem?_cons_zero
    · rw [if_neg hjs]
      rw [List.getElem?_append_left (by simp only [List.length_replicate]; omega)]
      exact List.getElem?_replicate_of_lt (by omega)
  · rw [if_neg hj, if_neg hj]

theorem fill_length_ge (W : Nat) (blocks : List (List Char))
    (start stop : Nat) (is_left : Bool) (hs : start + 1 ≤ blocks.length)
    (hss : start < stop) :
    blocks.length ≤ (fill_line_blocks W blocks start stop is_left).length := by
  unfold fill_line_blocks
  cases is_left with
  | true =>
    simp only [if_true]
    exact sliceAssign_length_ge blocks start stop _ (by omega)
      (by simp only [List.length_cons, List.length_replicate]; omega)
  | false =>
    simp only [Bool.false_eq_true, if_false]
    exact sliceAssign_length_ge blocks (start + 1) (stop + 1) _ (by omega)
      (by simp only [List.length_append, List.length_replicate,
        List.length_cons, List.length_nil]; omega)

theorem fill_blocks_width (W : Nat) (blocks : List (List Char))
    (start stop : Nat) (is_left : Bool)
    (hall : ∀ b ∈ blocks, b.length = W) :
    ∀ b ∈ fill_line_blocks W blocks start stop is_left, b.length = W := by
  intro b hb
  unfold fill_line_blocks at hb
  have hhalf : W / 2 ≤ W := Nat.div_le_self W 2
  cases is_left with
  | true =>
    simp only [if_true] at hb
    rcases sliceAssign_mem _ _ _ _ b hb with hb2 | hb2
    · exact hall b hb2
    · simp only [List.mem_cons, List.mem_replicate] at hb2
      rcases hb2 with rfl | ⟨-, rfl⟩
      · simp only [List.length_append, List.length_replicate]
        omega
      · exact List.length_replicate W '-'
  | false =>
    simp only [Bool.false_eq_true, if_false] at hb
    rcases sliceAssign_mem _ _ _ _ b hb with hb2 | hb2
    · exact hall b hb2
    · simp only [List.mem_append, List.mem_replicate, List.mem_cons,
        List.not_mem_nil, or_false] at hb2
      rcases hb2 with ⟨-, rfl⟩ | rfl
      · exact List.length_replicate W '-'
      · simp only [List.length_append, List.length_replicate]
        omega

theorem get_second_line_eq_fold (W : Nat)
    (tree_line_above tree_line_below : List (Nat × Node)) :
    get_second_line_below_tree_line W tree_line_above tree_line_below =
      (tree_line_above.foldl (second_line_step W tree_line_below)
        (List.replicate
          (max (tree_line_above.getLastD (0, Node.nil)).1
            (tree_line_below.getLastD (0, Node.nil)).1)
          (List.replicate W ' '))).flatten := rfl

theorem ipos_inj (t : Node) (q1 q2 : TPath) (h1 : validPath t q1)
    (h2 : validPath t q2) (heq : ipos t q1 = ipos t q2) : q1 = q2 := by
  have hh := inorderPaths_get_ipos t q1 h1
  rw [heq, inorderPaths_get_ipos t q2 h2] at hh
  exact (Option.some.inj hh).symm

/-- One fold step: the parent at path `q` writes exactly its bridge columns,
with the half/full dash blocks, and leaves every other column unchanged. -/
theorem second_step_getElem (t : Node) (hwf : WFTree t) (W : Nat) (q : TPath)
    (hq : validPath t q) (blocks : List (List Char))
    (hc : ipos t q ≤ blocks.length)
    (hrb : validPath t (q ++ [Dir.R]) → ipos t (q ++ [Dir.R]) ≤ blocks.length)
    (j : Nat) :
    (second_line_step W (level_line_of (get_inorder_listinfo t 0) (q.length + 1))
        blocks (ipos t q, subtreeAt t q))[j]? =
      (if bridgeCovers t q j then some (bridgeContent W t q j)
       else blocks[j]?) := by
  have hLiff : ((ipos t q, subtreeAt t q).2.get_left ≠ Node.nil) =
      validPath t (q ++ [Dir.L]) := by
    show ((subtreeAt t q).get_left ≠ Node.nil) = _
    rw [validPath, subtreeAt_child_left]
  have hRiff : ((ipos t q, subtreeAt t q).2.get_right ≠ Node.nil) =
      validPath t (q ++ [Dir.R]) := by
    show ((subtreeAt t q).get_right ≠ Node.nil) = _
    rw [validPath, subtreeAt_child_right]
  have hfindL : validPath t (q ++ [Dir.L]) →
      ((level_line_of (get_inorder_listinfo t 0) (q.length + 1)).find?
        (fun x => x.2 == (ipos t q, subtreeAt t q).2.get_left)).getD
        (0, Node.nil) = (ipos t (q ++ [Dir.L]), subtreeAt t (q ++ [Dir.L])) := by
    intro hL
    show ((level_line_of (get_inorder_listinfo t 0) (q.length + 1)).find?
        (fun x => x.2 == (subtreeAt t q).get_left)).getD (0, Node.nil) = _
    rw [← subtreeAt_child_left, find_child_eq t hwf q Dir.L hL]
    rfl
  have hfindR : validPath t (q ++ [Dir.R]) →
      ((level_line_of (get_inorder_listinfo t 0) (q.length + 1)).find?
        (fun x => x.2 == (ipos t q, subtreeAt t q).2.get_right)).getD
        (0, Node.nil) = (ipos t (q ++ [Dir.R]), subtreeAt t (q ++ [Dir.R])) := by
    intro hR
    show ((level_line_of (get_inorder_listinfo t 0) (q.length + 1)).find?
        (fun x => x.2 == (subtreeAt t q).get_right)).getD (0, Node.nil) = _
    rw [← subtreeAt_child_right, find_child_eq t hwf q Dir.R hR]
    rfl
  unfold second_line_step
  by_cases hL : validPath t (q ++ [Dir.L]) <;>
    by_cases hR : validPath t (q ++ [Dir.R])
  · -- both children
    simp only [hLiff, hRiff, hfindL hL, hfindR hR]
    rw [if_pos hR, if_pos hL]
    have hlc : ipos t (q ++ [Dir.L]) < ipos t q := ipos_left_lt t q [] hL
    have hrc : ipos t q < ipos t (q ++ [Dir.R]) := ipos_right_gt t q [] hR
    have hlen2 : blocks.length ≤
        (fill_line_blocks W blocks (ipos t (q ++ [Dir.L])) (ipos t q) true).length :=
      fill_length_ge W blocks _ _ true (by omega) hlc
    rw [fill_right_getElem W _ (ipos t q) (ipos t (q ++ [Dir.R]))
      (by have := hrb hR; omega) hrc j]
    rw [fill_left_getElem W blocks (ipos t (q ++ [Dir.L])) (ipos t q)
      (by omega) hlc j]
    simp only [bridgeCovers, bridgeContent, hL, hR, true_and]
    split_ifs <;> first | rfl | omega
  · -- left child only
    simp only [hLiff, hRiff, hfindL hL]
    rw [if_neg hR, if_pos hL]
    have hlc : ipos t (q ++ [Dir.L]) < ipos t q := ipos_left_lt t q [] hL
    rw [fill_left_getElem W blocks (ipos t (q ++ [Dir.L])) (ipos t q)
      (by omega) hlc j]
    simp only [bridgeCovers, bridgeContent, hL, hR, true_and, false_and,
      or_false]
    split_ifs <;> first | rfl | omega
  · -- right child only
    simp only [hLiff, hRiff, hfindR hR]
    rw [if_pos hR, if_neg hL]
    have hrc : ipos t q < ipos t (q ++ [Dir.R]) := ipos_right_gt t q [] hR
    rw [fill_right_getElem W blocks (ipos t q) (ipos t (q ++ [Dir.R]))
      (by have := hrb hR; omega) hrc j]
    simp only [bridgeCovers, bridgeContent, hL, hR, true_and, false_and,
      false_or]
    split_ifs <;> first | rfl | omega
  · -- leaf
    simp only [hLiff, hRiff]
    rw [if_neg hR, if_neg hL]
    simp only [bridgeCovers, hL, hR, false_and, or_false]
    rw [if_neg (by simp)]

theorem second_step_length_ge (t : Node) (hwf : WFTree t) (W : Nat) (q : TPath)
    (hq : validPath t q) (blocks : List (List Char))
    (hc : ipos t q ≤ blocks.length)
    (hrb : validPath t (q ++ [Dir.R]) → ipos t (q ++ [Dir.R]) ≤ blocks.length) :
    blocks.length ≤
      (second_line_step W (level_line_of (get_inorder_listinfo t 0) (q.length + 1))
        blocks (ipos t q, subtreeAt t q)).length := by
  have hLiff : ((ipos t q, subtreeAt t q).2.get_left ≠ Node.nil) =
      validPath t (q ++ [Dir.L]) := by
    show ((subtreeAt t q).get_left ≠ Node.nil) = _
    rw [validPath, subtreeAt_child_left]
  have hRiff : ((ipos t q, subtreeAt t q).2.get_right ≠ Node.nil) =
      validPath t (q ++ [Dir.R]) := by
    show ((subtreeAt t q).get_right ≠ Node.nil) = _
    rw [validPath, subtreeAt_child_right]
  unfold second_line_step
  simp only [hLiff, hRiff]
  by_cases hL : validPath t (q ++ [Dir.L]) <;>
    by_cases hR : validPath t (q ++ [Dir.R])
  · rw [if_pos hR, if_pos hL]
    have hfindL : ((level_line_of (get_inorder_listinfo t 0) (q.length + 1)).find?
        (fun x => x.2 == (ipos t q, subtreeAt t q).2.get_left)).getD
        (0, Node.nil) = (ipos t (q ++ [Dir.L]), subtreeAt t (q ++ [Dir.L])) := by
      show ((level_line_of (get_inorder_listinfo t 0) (q.length + 1)).find?
          (fun x => x.2 == (subtreeAt t q).get_left)).getD (0, Node.nil) = _
      rw [← subtreeAt_child_left, find_child_eq t hwf q Dir.L hL]
      rfl
    have hfindR : ((level_line_of (get_inorder_listinfo t 0) (q.length + 1)).find?
        (fun x => x.2 == (ipos t q, subtreeAt t q).2.get_right)).getD
        (0, Node.nil) = (ipos t (q ++ [Dir.R]), subtreeAt t (q ++ [Dir.R])) := by
      show ((level_line_of (get_inorder_listinfo t 0) (q.length + 1)).find?
          (fun x => x.2 == (subtreeAt t q).get_right)).getD (0, Node.nil) = _
      rw [← subtreeAt_child_right, find_child_eq t hwf q Dir.R hR]
      rfl
    rw [hfindL, hfindR]
    have h1 : ipos t (q ++ [Dir.L]) < ipos t q := ipos_left_lt t q [] hL
    have h2 : ipos t q < ipos t (q ++ [Dir.R]) := ipos_right_gt t q [] hR
    have hg1 : blocks.length ≤
        (fill_line_blocks W blocks (ipos t (q ++ [Dir.L])) (ipos t q) true).length :=
      fill_length_ge W blocks _ _ true (by omega) h1
    have hg2 := fill_length_ge W
      (fill_line_blocks W blocks (ipos t (q ++ [Dir.L])) (ipos t q) true)
      (ipos t q) (ipos t (q ++ [Dir.R])) false (by have := hrb hR; omega) h2
    simpa using Nat.le_trans hg1 hg2
  · rw [if_neg hR, if_pos hL]
    have hfindL : ((level_line_of (get_inorder_listinfo t 0) (q.length + 1)).find?
        (fun x => x.2 == (ipos t q, subtreeAt t q).2.get_left)).getD
        (0, Node.nil) = (ipos t (q ++ [Dir.L]), subtreeAt t (q ++ [Dir.L])) := by
      show ((level_line_of (get_inorder_listinfo t 0) (q.length + 1)).find?
          (fun x => x.2 == (subtreeAt t q).get_left)).getD (0, Node.nil) = _
      rw [← subtreeAt_child_left, find_child_eq t hwf q Dir.L hL]
      rfl
    rw [hfindL]
    have h1 : ipos t (q ++ [Dir.L]) < ipos t q := ipos_left_lt t q [] hL
    simpa using fill_length_ge W blocks (ipos t (q ++ [Dir.L])) (ipos t q) true
      (by omega) h1
  · rw [if_pos hR, if_neg hL]
    have hfindR : ((level_line_of (get_inorder_listinfo t 0) (q.length + 1)).find?
        (fun x => x.2 == (ipos t q, subtreeAt t q).2.get_right)).getD
        (0, Node.nil) = (ipos t (q ++ [Dir.R]), subtreeAt t (q ++ [Dir.R])) := by
      show ((level_line_of (get_inorder_listinfo t 0) (q.length + 1)).find?
          (fun x => x.2 == (subtreeAt t q).get_right)).getD (0, Node.nil) = _
      rw [← subtreeAt_child_right, find_child_eq t hwf q Dir.R hR]
      rfl
    rw [hfindR]
    have h2 : ipos t q < ipos t (q ++ [Dir.R]) := ipos_right_gt t q [] hR
    simpa using fill_length_ge W blocks (ipos t q) (ipos t (q ++ [Dir.R])) false
      (by have := hrb hR; omega) h2
  · rw [if_neg hR, if_neg hL]

/-- The whole fold of `_get_second_line_below_tree_line`: a column covered by
some parent's bridge carries that bridge's block; every other column is
whatever it was initially. -/
theorem second_fold_getElem (t : Node) (hwf : WFTree t) (W d : Nat)
    (rest : List (Nat × Node)) (blocks : List (List Char))
    (hin : ∀ x ∈ rest, ∃ q, validPath t q ∧ q.length = d ∧
      x = (ipos t q, subtreeAt t q))
    (hsorted : List.Pairwise (fun a b : Nat × Node => a.1 < b.1) rest)
    (hcb : ∀ x ∈ rest, x.1 ≤ blocks.length)
    (hrb : ∀ q, validPath t q → q.length = d →
      (ipos t q, subtreeAt t q) ∈ rest →
      validPath t (q ++ [Dir.R]) → ipos t (q ++ [Dir.R]) ≤ blocks.length) :
    (∀ j,
      (∀ q, validPath t q → q.length = d → (ipos t q, subtreeAt t q) ∈ rest →
        ¬ bridgeCovers t q j) →
      (rest.foldl
        (second_line_step W (level_line_of (get_inorder_listinfo t 0) (d + 1)))
        blocks)[j]? = blocks[j]?) ∧
    (∀ j q, validPath t q → q.length = d →
      (ipos t q, subtreeAt t q) ∈ rest → bridgeCovers t q j →
      (rest.foldl
        (second_line_step W (level_line_of (get_inorder_listinfo t 0) (d + 1)))
        blocks)[j]? = some (bridgeContent W t q j)) := by
  induction rest generalizing blocks with
  | nil =>
    refine ⟨fun j _ => rfl, fun j q _ _ hmem _ => absurd hmem (List.not_mem_nil _)⟩
  | cons x rest2 ih =>
    obtain ⟨qx, hqx, hqxlen, hxeq⟩ := hin x (List.mem_cons_self _ _)
    subst hxeq
    subst hqxlen
    rcases List.pairwise_cons.1 hsorted with ⟨hhead, hsorted2⟩
    have hcx : ipos t qx ≤ blocks.length := hcb _ (List.mem_cons_self _ _)
    have hrbx : validPath t (qx ++ [Dir.R]) →
        ipos t (qx ++ [Dir.R]) ≤ blocks.length :=
      hrb qx hqx rfl (List.mem_cons_self _ _)
    have hstep := second_step_getElem t hwf W qx hqx blocks hcx hrbx
    have hsteplen := second_step_length_ge t hwf W qx hqx blocks hcx hrbx
    rw [List.foldl_cons]
    have hih := ih
      (second_line_step W
        (level_line_of (get_inorder_listinfo t 0) (qx.length + 1)) blocks
        (ipos t qx, subtreeAt t qx))
      (fun y hy => hin y (List.mem_cons_of_mem _ hy))
      hsorted2
      (fun y hy => Nat.le_trans (hcb y (List.mem_cons_of_mem _ hy)) hsteplen)
      (fun q hq hqlen hqmem hvr =>
        Nat.le_trans (hrb q hq hqlen (List.mem_cons_of_mem _ hqmem) hvr)
          hsteplen)
    have hne_of_mem : ∀ q2, validPath t q2 → q2.length = qx.length →
        (ipos t q2, subtreeAt t q2) ∈ rest2 → q2 ≠ qx := by
      intro q2 hq2 hq2len hq2mem hc
      subst hc
      have hlt := hhead _ hq2mem
      exact absurd rfl (Nat.ne_of_lt hlt)
    constructor
    · intro j hnc
      have h1 := hih.1 j (fun q2 hq2 hq2len hq2mem =>
        hnc q2 hq2 hq2len (List.mem_cons_of_mem _ hq2mem))
      rw [h1, hstep j,
        if_neg (hnc qx hqx rfl (List.mem_cons_self _ _))]
    · intro j q2 hq2 hq2len hq2mem hcov
      rcases List.mem_cons.1 hq2mem with heq | hmem2
      · -- the head parent's own bridge
        have hq2x : q2 = qx := by
          have hposeq : ipos t q2 = ipos t qx := congrArg Prod.fst heq
          exact ipos_inj t q2 qx hq2 hqx hposeq
        subst hq2x
        have h1 := hih.1 j (fun q3 hq3 hq3len hq3mem hcov3 => by
          have hne3 : q3 ≠ q2 := hne_of_mem q3 hq3 hq3len hq3mem
          exact bridgeCovers_disjoint t q3 q2 hq3 hq2
            (by rw [hq3len, hq2len]) hne3 j hcov3 hcov)
        rw [h1, hstep j, if_pos hcov]
      · exact hih.2 j q2 hq2 hq2len hmem2 hcov

theorem second_step_width (W : Nat) (below : List (Nat × Node))
    (blocks : List (List Char)) (x : Nat × Node)
    (hall : ∀ b ∈ blocks, b.length = W) :
    ∀ b ∈ second_line_step W below blocks x, b.length = W := by
  intro b hb
  unfold second_line_step at hb
  by_cases hL : x.2.get_left ≠ Node.nil <;>
    by_cases hR : x.2.get_right ≠ Node.nil
  · rw [if_pos hR, if_pos hL] at hb
    exact fill_blocks_width W _ _ _ false
      (fill_blocks_width W _ _ _ true hall) b hb
  · rw [if_neg hR, if_pos hL] at hb
    exact fill_blocks_width W _ _ _ true hall b hb
  · rw [if_pos hR, if_neg hL] at hb
    exact fill_blocks_width W _ _ _ false hall b hb
  · rw [if_neg hR, if_neg hL] at hb
    exact hall b hb

theorem second_fold_width (W : Nat) (below : List (Nat × Node))
    (rest : List (Nat × Node)) (blocks : List (List Char))
    (hall : ∀ b ∈ blocks, b.length = W) :
    ∀ b ∈ rest.foldl (second_line_step W below) blocks, b.length = W := by
  induction rest generalizing blocks with
  | nil => exact hall
  | cons x rest2 ih =>
    rw [List.foldl_cons]
    exact ih _ (second_step_width W below blocks x hall)

/-- C8 — Bridge row: children are located by identity (never misrouted by
duplicate values); in the bridge row between a parent's level and the next,
every column strictly between child and parent holds a full W-wide dash
block, the child's own column holds the half-filled block (right half dashed
for a left child, left half dashed for a right child), and every column
inside the row covered by no bridge stays W blank spaces. -/
theorem c8_bridge_row (t : Node) (hwf : WFTree t) (p : TPath)
    (h : validPath t p) :
    (validPath t (p ++ [Dir.L]) →
      (level_line_of (get_inorder_listinfo t 0) (p.length + 1)).find?
          (fun x => x.2 == (subtreeAt t p).get_left) =
        some (ipos t (p ++ [Dir.L]), subtreeAt t (p ++ [Dir.L]))) ∧
    (validPath t (p ++ [Dir.R]) →
      (level_line_of (get_inorder_listinfo t 0) (p.length + 1)).find?
          (fun x => x.2 == (subtreeAt t p).get_right) =
        some (ipos t (p ++ [Dir.R]), subtreeAt t (p ++ [Dir.R]))) ∧
    (validPath t (p ++ [Dir.L]) →
      (∀ k, k < (TreePrinter.init t).max_value_len →
        (get_second_line_below_tree_line (TreePrinter.init t).max_value_len
          (level_line_of (get_inorder_listinfo t 0) p.length)
          (level_line_of (get_inorder_listinfo t 0) (p.length + 1)))[
          ipos t (p ++ [Dir.L]) * (TreePrinter.init t).max_value_len + k]? =
        (List.replicate ((TreePrinter.init t).max_value_len -
            (TreePrinter.init t).max_value_len / 2) ' ' ++
          List.replicate ((TreePrinter.init t).max_value_len / 2) '-')[k]?) ∧
      (∀ j, ipos t (p ++ [Dir.L]) < j → j < ipos t p →
        ∀ k, k < (TreePrinter.init t).max_value_len →
        (get_second_line_below_tree_line (TreePrinter.init t).max_value_len
          (level_line_of (get_inorder_listinfo t 0) p.length)
          (level_line_of (get_inorder_listinfo t 0) (p.length + 1)))[
          j * (TreePrinter.init t).max_value_len + k]? = some '-')) ∧
    (validPath t (p ++ [Dir.R]) →
      (∀ k, k < (TreePrinter.init t).max_value_len →
        (get_second_line_below_tree_line (TreePrinter.init t).max_value_len
          (level_line_of (get_inorder_listinfo t 0) p.length)
          (level_line_of (get_inorder_listinfo t 0) (p.length + 1)))[
          ipos t (p ++ [Dir.R]) * (TreePrinter.init t).max_value_len + k]? =
        (List.replicate ((TreePrinter.init t).max_value_len / 2) '-' ++
          List.replicate ((TreePrinter.init t).max_value_len -
            (TreePrinter.init t).max_value_len / 2) ' ')[k]?) ∧
      (∀ j, ipos t p < j → j < ipos t (p ++ [Dir.R]) →
        ∀ k, k < (TreePrinter.init t).max_value_len →
        (get_second_line_below_tree_line (TreePrinter.init t).max_value_len
          (level_line_of (get_inorder_listinfo t 0) p.length)
          (level_line_of (get_inorder_listinfo t 0) (p.length + 1)))[
          j * (TreePrinter.init t).max_value_len + k]? = some '-')) ∧
    (∀ j,
      j < max ((level_line_of (get_inorder_listinfo t 0) p.length).getLastD
          (0, Node.nil)).1
        ((level_line_of (get_inorder_listinfo t 0) (p.length + 1)).getLastD
          (0, Node.nil)).1 →
      (∀ q, validPath t q → q.length = p.length → ¬ bridgeCovers t q j) →
      ∀ k, k < (TreePrinter.init t).max_value_len →
      (get_second_line_below_tree_line (TreePrinter.init t).max_value_len
        (level_line_of (get_inorder_listinfo t 0) p.length)
        (level_line_of (get_inorder_listinfo t 0) (p.length + 1)))[
        j * (TreePrinter.init t).max_value_len + k]? = some ' ') := by
  have hW2 : 2 ≤ (TreePrinter.init t).max_value_len := two_le_max_value_len t
  generalize hWdef : (TreePrinter.init t).max_value_len = W at *
  have hfindL : validPath t (p ++ [Dir.L]) →
      (level_line_of (get_inorder_listinfo t 0) (p.length + 1)).find?
          (fun x => x.2 == (subtreeAt t p).get_left) =
        some (ipos t (p ++ [Dir.L]), subtreeAt t (p ++ [Dir.L])) := by
    intro hL
    rw [← subtreeAt_child_left]
    exact find_child_eq t hwf p Dir.L hL
  have hfindR : validPath t (p ++ [Dir.R]) →
      (level_line_of (get_inorder_listinfo t 0) (p.length + 1)).find?
          (fun x => x.2 == (subtreeAt t p).get_right) =
        some (ipos t (p ++ [Dir.R]), subtreeAt t (p ++ [Dir.R])) := by
    intro hR
    rw [← subtreeAt_child_right]
    exact find_child_eq t hwf p Dir.R hR
  refine ⟨hfindL, hfindR, ?_⟩
  -- the row as a fold over the upper line
  obtain ⟨L0, hL0⟩ : ∃ L0,
      max ((level_line_of (get_inorder_listinfo t 0) p.length).getLastD
          (0, Node.nil)).1
        ((level_line_of (get_inorder_listinfo t 0) (p.length + 1)).getLastD
          (0, Node.nil)).1 = L0 := ⟨_, rfl⟩
  have hrow := get_second_line_eq_fold W
    (level_line_of (get_inorder_listinfo t 0) p.length)
    (level_line_of (get_inorder_listinfo t 0) (p.length + 1))
  rw [hL0] at hrow
  have hsortA := level_line_sorted (get_inorder_listinfo t 0) p.length
  have hsortB := level_line_sorted (get_inorder_listinfo t 0) (p.length + 1)
  have hinitlen : (List.replicate L0 (List.replicate W ' ')).length = L0 :=
    List.length_replicate L0 _
  have hfold := second_fold_getElem t hwf W p.length
    (level_line_of (get_inorder_listinfo t 0) p.length)
    (List.replicate L0 (List.replicate W ' '))
    (fun x hx => level_line_entries t p.length x hx)
    hsortA
    (fun x hx => by
      have h1 := mem_le_getLastD _ x hx hsortA
      rw [hinitlen]
      omega)
    (fun q hq hqlen hqmem hvr => by
      have hcm := mem_level_line t (q ++ [Dir.R]) hvr
      rw [show (q ++ [Dir.R]).length = q.length + 1 from by simp, hqlen] at hcm
      have h1 := mem_le_getLastD _ _ hcm hsortB
      rw [hinitlen]
      omega)
  have hwidth := second_fold_width W
    (level_line_of (get_inorder_listinfo t 0) (p.length + 1))
    (level_line_of (get_inorder_listinfo t 0) p.length)
    (List.replicate L0 (List.replicate W ' '))
    (fun b hb => by
      rcases List.mem_replicate.1 hb with ⟨-, rfl⟩
      exact List.length_replicate W ' ')
  have hchar : ∀ j k, k < W →
      (get_second_line_below_tree_line W
        (level_line_of (get_inorder_listinfo t 0) p.length)
        (level_line_of (get_inorder_listinfo t 0) (p.length + 1)))[j * W + k]? =
      (((level_line_of (get_inorder_listinfo t 0) p.length).foldl
        (second_line_step W
          (level_line_of (get_inorder_listinfo t 0) (p.length + 1)))
        (List.replicate L0 (List.replicate W ' ')))[j]?).bind
        (fun b => b[k]?) := by
    intro j k hk
    rw [hrow]
    exact flatten_getElem_blocks W _ hwidth j k hk
  have hpm : (ipos t p, subtreeAt t p) ∈
      level_line_of (get_inorder_listinfo t 0) p.length := mem_level_line t p h
  refine ⟨?_, ?_, ?_⟩
  · -- left child conjunct
    intro hL
    have hlc : ipos t (p ++ [Dir.L]) < ipos t p := ipos_left_lt t p [] hL
    constructor
    · intro k hk
      have hcov : bridgeCovers t p (ipos t (p ++ [Dir.L])) :=
        Or.inl ⟨hL, Nat.le_refl _, hlc⟩
      have hfj := hfold.2 (ipos t (p ++ [Dir.L])) p h rfl hpm hcov
      have hcont : bridgeContent W t p (ipos t (p ++ [Dir.L])) =
          List.replicate (W - W / 2) ' ' ++ List.replicate (W / 2) '-' := by
        unfold bridgeContent
        rw [if_pos hlc, if_pos rfl]
      rw [hchar _ k hk, hfj, hcont]
      rfl
    · intro j hj1 hj2 k hk
      have hcov : bridgeCovers t p j := Or.inl ⟨hL, by omega, hj2⟩
      have hfj := hfold.2 j p h rfl hpm hcov
      have hcont : bridgeContent W t p j = List.replicate W '-' := by
        unfold bridgeContent
        rw [if_pos hj2, if_neg (by omega)]
      rw [hchar _ k hk, hfj, hcont]
      exact List.getElem?_replicate_of_lt hk
  · -- right child conjunct
    intro hR
    have hrc : ipos t p < ipos t (p ++ [Dir.R]) := ipos_right_gt t p [] hR
    constructor
    · intro k hk
      have hcov : bridgeCovers t p (ipos t (p ++ [Dir.R])) :=
        Or.inr ⟨hR, hrc, Nat.le_refl _⟩
      have hfj := hfold.2 (ipos t (p ++ [Dir.R])) p h rfl hpm hcov
      have hcont : bridgeContent W t p (ipos t (p ++ [Dir.R])) =
          List.replicate (W / 2) '-' ++ List.replicate (W - W / 2) ' ' := by
        unfold bridgeContent
        rw [if_neg (by omega), if_pos rfl]
      rw [hchar _ k hk, hfj, hcont]
      rfl
    · intro j hj1 hj2 k hk
      have hcov : bridgeCovers t p j := Or.inr ⟨hR, hj1, by omega⟩
      have hfj := hfold.2 j p h rfl hpm hcov
      have hcont : bridgeContent W t p j = List.replicate W '-' := by
        unfold bridgeContent
        rw [if_neg (by omega)]
        rw [if_neg (by omega)]
      rw [hchar _ k hk, hfj, hcont]
      exact List.getElem?_replicate_of_lt hk
  · -- blank columns
    intro j hj hnc k hk
    rw [hL0] at hj
    have hfj := hfold.1 j (fun q hq hqlen _ => hnc q hq hqlen)
    rw [hchar _ k hk, hfj,
      List.getElem?_replicate_of_lt (by omega)]
    exact List.getElem?_replicate_of_lt hk

/-- Witness for C8 at the doctest root: child found by identity; half block
char, full-dash char, and a blank parent-column char in the level-0 bridge
row. -/
theorem c8_bridge_row_witness :
    WFTree doct_n0 ∧ validPath doct_n0 ([] : TPath) ∧
    validPath doct_n0 (([] : TPath) ++ [Dir.L]) ∧
    ((level_line_of (get_inorder_listinfo doct_n0 0) (([] : TPath).length + 1)).find?
        (fun x => x.2 == (subtreeAt doct_n0 ([] : TPath)).get_left) =
      some (ipos doct_n0 (([] : TPath) ++ [Dir.L]),
        subtreeAt doct_n0 (([] : TPath) ++ [Dir.L]))) ∧
    ((get_second_line_below_tree_line (TreePrinter.init doct_n0).max_value_len
        (level_line_of (get_inorder_listinfo doct_n0 0) ([] : TPath).length)
        (level_line_of (get_inorder_listinfo doct_n0 0) (([] : TPath).length + 1)))[
        ipos doct_n0 (([] : TPath) ++ [Dir.L]) *
          (TreePrinter.init doct_n0).max_value_len + 4]? =
      (List.replicate ((TreePrinter.init doct_n0).max_value_len -
          (TreePrinter.init doct_n0).max_value_len / 2) ' ' ++
        List.replicate ((TreePrinter.init doct_n0).max_value_len / 2) '-')[(4 : Nat)]?) ∧
    ((get_second_line_below_tree_line (TreePrinter.init doct_n0).max_value_len
        (level_line_of (get_inorder_listinfo doct_n0 0) ([] : TPath).length)
        (level_line_of (get_inorder_listinfo doct_n0 0) (([] : TPath).length + 1)))[
        1 * (TreePrinter.init doct_n0).max_value_len + 0]? = some '-') ∧
    ((get_second_line_below_tree_line (TreePrinter.init doct_n0).max_value_len
        (level_line_of (get_inorder_listinfo doct_n0 0) ([] : TPath).length)
        (level_line_of (get_inorder_listinfo doct_n0 0) (([] : TPath).length + 1)))[
        2 * (TreePrinter.init doct_n0).max_value_len + 0]? = some ' ') := by
  have h := c8_bridge_row doct_n0 (by decide) ([] : TPath) (by decide)
  have hL : validPath doct_n0 (([] : TPath) ++ [Dir.L]) := by decide
  refine ⟨by decide, by decide, hL, h.1 hL, ?_, ?_, ?_⟩
  · exact (h.2.2.1 hL).1 4 (by decide)
  · exact (h.2.2.1 hL).2 1 (by decide) (by decide) 0 (by decide)
  · refine h.2.2.2.2 2 (by decide) ?_ 0 (by decide)
    intro q hq hlen
    have hlen0 : q.length = 0 := hlen
    rw [List.length_eq_zero] at hlen0
    subst hlen0
    decide
